import Mathlib

/-!
Verification development for the realgas library.

Part 1 embeds the equation-of-state layer (src/src/eos.rs together with the
state resolver of src/lib/lib.rs) over the real numbers: the floating point
arithmetic of the source is idealised as exact real arithmetic.  The external
cubic root solver (the `roots` crate) is modelled abstractly as a function
returning a list of real roots, constrained by the hypothesis that membership
in that list coincides with being a real root of the cubic.

Part 2 embeds the mixture builder (src/lib/gas.rs) over exact rationals,
with an explicit NaN-carrying fraction type `Fl` mirroring the role NaN plays
in `Mixture::new` (a `Comp::Remainder` is encoded as a NaN fraction).
-/

/-- Universal gas constant in J/mol.K, from `pub const R` in src/lib/lib.rs. -/
def R : ℝ := 8.31446262

/-- Critical state of a pure compound (src/src/lib.rs `CriticalState`). -/
structure CriticalState where
  p : ℝ
  t : ℝ
  v : ℝ

/-- Compressibility factor at the critical point (`CriticalState::z`). -/
noncomputable def CriticalState.z (cs : CriticalState) : ℝ := cs.p * cs.v / (R * cs.t)

/-- The A and B parameters of an equation of state (`AbParams`). -/
structure AbParams where
  a : ℝ
  b : ℝ

/-- The A, B and C parameters of an equation of state (`AbcParams`). -/
structure AbcParams where
  a : ℝ
  b : ℝ
  c : ℝ

/-- Coefficients `[a3, a2, a1, a0]` of a cubic `a3*Z^3 + a2*Z^2 + a1*Z + a0 = 0`,
as returned by `z_polyn`. -/
structure ZCubic where
  a3 : ℝ
  a2 : ℝ
  a1 : ℝ
  a0 : ℝ

/-- Value of the cubic polynomial at `z`. -/
noncomputable def ZCubic.eval (c : ZCubic) (z : ℝ) : ℝ := c.a3 * z ^ 3 + c.a2 * z ^ 2 + c.a1 * z + c.a0

/-- Real-exponent power, modelling f64 `powf`. -/
noncomputable def powf (x y : ℝ) : ℝ := Real.rpow x y

namespace IdealGas

/-- `IdealGas::params`: no parameters. -/
noncomputable def params (_cs : CriticalState) (_w _t : ℝ) : Unit := ()

/-- `IdealGas::pressure`. -/
noncomputable def pressure (_params : Unit) (vm t : ℝ) : ℝ := R * t / vm

/-- `IdealGas::z_polyn`: Z = 1. -/
noncomputable def z_polyn (_params : Unit) (_p _t : ℝ) : ZCubic := ⟨0, 0, 1, -1⟩

end IdealGas

namespace VanDerWaals

/-- `VanDerWaals::params`. -/
noncomputable def params (cs : CriticalState) (_w _t : ℝ) : AbParams :=
  { a := 27 * R * R * cs.t * cs.t / (64 * cs.p)
    b := R * cs.t / (8 * cs.p) }

/-- `VanDerWaals::pressure`. -/
noncomputable def pressure (params : AbParams) (vm t : ℝ) : ℝ :=
  R * t / (vm - params.b) - params.a / (vm * vm)

/-- `VanDerWaals::z_polyn`. -/
noncomputable def z_polyn (params : AbParams) (p t : ℝ) : ZCubic :=
  let a := params.a * p / (R * R * t * t)
  let b := params.b * p / (R * t)
  ⟨1, -b - 1, a, -(a * b)⟩

end VanDerWaals

namespace RedlichKwong

/-- `RedlichKwong::params`. -/
noncomputable def params (cs : CriticalState) (_w _t : ℝ) : AbParams :=
  { a := 0.42748023 * R * R * powf cs.t 2.5 / cs.p
    b := 0.08664035 * R * cs.t / cs.p }

/-- `RedlichKwong::pressure`. -/
noncomputable def pressure (params : AbParams) (vm t : ℝ) : ℝ :=
  R * t / (vm - params.b) - params.a / (Real.sqrt t * vm * (vm + params.b))

/-- `RedlichKwong::z_polyn`. -/
noncomputable def z_polyn (params : AbParams) (p t : ℝ) : ZCubic :=
  let a := params.a * p / (R * R * powf t 2.5)
  let b := params.b * p / (R * t)
  ⟨1, -1, a - b * b - b, -(a * b)⟩

end RedlichKwong

namespace SoaveRedlichKwong

/-- `SoaveRedlichKwong::params`. -/
noncomputable def params (cs : CriticalState) (w t : ℝ) : AbParams :=
  let m := 0.48 + 1.574 * w - 0.176 * w * w
  let sq_a := 1 + m * (1 - Real.sqrt (t / cs.t))
  let alpha := sq_a * sq_a
  { a := alpha * 0.42748023 * R * R * cs.t * cs.t / cs.p
    b := 0.08664035 * R * cs.t / cs.p }

/-- `SoaveRedlichKwong::pressure`. -/
noncomputable def pressure (params : AbParams) (vm t : ℝ) : ℝ :=
  R * t / (vm - params.b) - params.a / (vm * (vm + params.b))

/-- `SoaveRedlichKwong::z_polyn`. -/
noncomputable def z_polyn (params : AbParams) (p t : ℝ) : ZCubic :=
  let a := params.a * p / (R * R * t * t)
  let b := params.b * p / (R * t)
  ⟨1, -1, a - b * b - b, -(a * b)⟩

end SoaveRedlichKwong

namespace PengRobinson

/-- `PengRobinson::params`, with the branching `m` formula on the acentric factor. -/
noncomputable def params (cs : CriticalState) (w t : ℝ) : AbParams :=
  let m := if w ≤ 0.491 then 0.37464 + 1.56226 * w - 0.26992 * w * w
    else 0.379642 + 1.487503 * w - 0.164423 * w * w - 0.016666 * w * w * w
  let sq_a := 1 + m * (1 - Real.sqrt (t / cs.t))
  let alpha := sq_a * sq_a
  { a := alpha * 0.4572355289213821 * R * R * cs.t * cs.t / cs.p
    b := 0.07779607390388844 * R * cs.t / cs.p }

/-- `PengRobinson::pressure`. -/
noncomputable def pressure (params : AbParams) (vm t : ℝ) : ℝ :=
  R * t / (vm - params.b) - params.a / (vm * vm + 2 * params.b * vm - params.b * params.b)

/-- `PengRobinson::z_polyn`. -/
noncomputable def z_polyn (params : AbParams) (p t : ℝ) : ZCubic :=
  let a := params.a * p / (R * R * t * t)
  let b := params.b * p / (R * t)
  ⟨1, b - 1, -3 * b * b - 2 * b + a, b * b * b + b * b - a * b⟩

end PengRobinson

namespace PatelTejaValderrama

/-- `PatelTejaValderrama::params`. -/
noncomputable def params (cs : CriticalState) (w t : ℝ) : AbcParams :=
  let zc := cs.z
  let m := 0.46283 + 3.58230 * w * zc + 8.19417 * w * w * zc * zc
  let sq_a := 1 + m * (1 - Real.sqrt (t / cs.t))
  let alpha := sq_a * sq_a
  let omega_a := 0.66121 - 0.76105 * zc
  let omega_b := 0.02207 + 0.20868 * zc
  let omega_c := 0.57765 - 1.78080 * zc
  { a := omega_a * alpha * R * R * cs.t * cs.t / cs.p
    b := omega_b * R * cs.t / cs.p
    c := omega_c * R * cs.t / cs.p }

/-- `PatelTejaValderrama::pressure`. -/
noncomputable def pressure (params : AbcParams) (vm t : ℝ) : ℝ :=
  R * t / (vm - params.b) - params.a / (vm * (vm + params.b) + params.c * (vm - params.b))

/-- `PatelTejaValderrama::z_polyn`. -/
noncomputable def z_polyn (params : AbcParams) (p t : ℝ) : ZCubic :=
  let a := params.a * p / (R * R * t * t)
  let b := params.b * p / (R * t)
  let c := params.c * p / (R * t)
  ⟨1, c - 1, -2 * b * c - b * b - b - c + a, b * b * c + b * c - a * b⟩

end PatelTejaValderrama

/-- `MixingRules for ()`: ideal gas mixing is a no-op. -/
noncomputable def unitMix (_mixture_params : List (ℝ × Unit)) : Unit := ()

/-- `MixingRules for AbParams`: quadratic mixing of `a`, linear mixing of `b`. -/
noncomputable def AbParams.mix (mixture_params : List (ℝ × AbParams)) : AbParams :=
  mixture_params.foldl
    (fun acc fp =>
      { a := acc.a + mixture_params.foldl
          (fun s fq => s + fp.1 * fq.1 * Real.sqrt (fp.2.a * fq.2.a)) 0
        b := acc.b + fp.1 * fp.2.b })
    ⟨0, 0⟩

/-- `MixingRules for AbcParams`: quadratic mixing of `a`, linear mixing of `b` and `c`. -/
noncomputable def AbcParams.mix (mixture_params : List (ℝ × AbcParams)) : AbcParams :=
  mixture_params.foldl
    (fun acc fp =>
      { a := acc.a + mixture_params.foldl
          (fun s fq => s + fp.1 * fq.1 * Real.sqrt (fp.2.a * fq.2.a)) 0
        b := acc.b + fp.1 * fp.2.b
        c := acc.c + fp.1 * fp.2.c })
    ⟨0, 0, 0⟩

/-- A molecule over the real-number idealisation (src/lib/gas.rs `Molecule`). -/
structure MoleculeR where
  m : ℝ
  critical_state : CriticalState
  w : ℝ

/-- A mixture over the real-number idealisation (src/lib/gas.rs `Mixture`). -/
structure MixtureR where
  comps : List (ℝ × MoleculeR)

/-- A gas, molecule or mixture (src/lib/gas.rs `Gas`). -/
inductive GasR where
  | molecule (mol : MoleculeR)
  | mixture (mix : MixtureR)

/-- `State::eos_params`, generic in the per-variant parameter computation and
mixing rule, as implemented for `Molecule` and `Mixture` in src/lib/lib.rs. -/
noncomputable def gasParams {P : Type} (paramsFn : CriticalState → ℝ → ℝ → P)
    (mixFn : List (ℝ × P) → P) (g : GasR) (t : ℝ) : P :=
  match g with
  | .molecule mol => paramsFn mol.critical_state mol.w t
  | .mixture mix =>
      mixFn (mix.comps.map fun fm => (fm.1, paramsFn fm.2.critical_state fm.2.w t))

/-- The runtime equation-of-state selector (src/src/eos.rs `Eos`). -/
inductive Eos where
  | idealGas
  | vanDerWaals
  | redlichKwong
  | soaveRedlichKwong
  | pengRobinson
  | patelTejaValderrama

/-- ZCubic coefficients produced by `State::z` for a gas under a given EoS:
the composition of `eos_params` and `z_polyn` of the selected variant. -/
noncomputable def GasR.zPolyn (g : GasR) (e : Eos) (p t : ℝ) : ZCubic :=
  match e with
  | .idealGas => IdealGas.z_polyn (gasParams IdealGas.params unitMix g t) p t
  | .vanDerWaals => VanDerWaals.z_polyn (gasParams VanDerWaals.params AbParams.mix g t) p t
  | .redlichKwong => RedlichKwong.z_polyn (gasParams RedlichKwong.params AbParams.mix g t) p t
  | .soaveRedlichKwong =>
      SoaveRedlichKwong.z_polyn (gasParams SoaveRedlichKwong.params AbParams.mix g t) p t
  | .pengRobinson => PengRobinson.z_polyn (gasParams PengRobinson.params AbParams.mix g t) p t
  | .patelTejaValderrama =>
      PatelTejaValderrama.z_polyn (gasParams PatelTejaValderrama.params AbcParams.mix g t) p t

/-- Root selection of `State::z` (src/lib/lib.rs lines 99-107): none for an
empty root list, otherwise the maximum of the returned roots, filtered to be
strictly positive.  `none` models the panic. -/
noncomputable def zSelect (roots : List ℝ) : Option ℝ :=
  match roots with
  | [] => none
  | r :: rs => if 0 < rs.foldl max r then some (rs.foldl max r) else none

/-- `State::z`, parameterised by the external cubic solver (the `roots` crate's
`find_roots_cubic`), modelled from the spec as a function yielding the list of
real roots it finds. -/
noncomputable def GasR.z (g : GasR) (e : Eos)
    (solver : ℝ → ℝ → ℝ → ℝ → List ℝ) (p t : ℝ) : Option ℝ :=
  let c := g.zPolyn e p t
  zSelect (solver c.a3 c.a2 c.a1 c.a0)

/-- Every foldl-max over a list is one of its elements. -/
lemma foldl_max_mem : ∀ (rs : List ℝ) (r : ℝ), rs.foldl max r ∈ r :: rs := by
  intro rs
  induction rs with
  | nil => intro r; simp
  | cons x xs ih =>
    intro r
    have h := ih (max r x)
    rcases List.mem_cons.1 h with h1 | h1
    · rw [List.foldl_cons, h1]
      rcases max_choice r x with h2 | h2 <;> simp [h2]
    · simp [List.foldl_cons]
      right; right; exact h1

/-- The foldl-max bounds the seed and every element of the list. -/
lemma le_foldl_max : ∀ (rs : List ℝ) (r : ℝ),
    r ≤ rs.foldl max r ∧ ∀ x ∈ rs, x ≤ rs.foldl max r := by
  intro rs
  induction rs with
  | nil => intro r; simp
  | cons x xs ih =>
    intro r
    obtain ⟨h1, h2⟩ := ih (max r x)
    refine ⟨le_trans (le_max_left r x) h1, ?_⟩
    intro y hy
    rcases List.mem_cons.1 hy with h3 | h3
    · rw [List.foldl_cons, h3]
      exact le_trans (le_max_right r x) h1
    · exact h2 y h3

/-- C1: for every gas, EoS variant, pressure and temperature, `State::z`
computes the cubic coefficients via `z_polyn`, and — assuming the external
solver returns exactly the real roots of that cubic — returns the largest real
root when it is strictly positive (so every returned value is strictly
positive, a root, and an upper bound of all real roots), and fails (returns
`none`, modelling the panic) exactly when the cubic has no real root or when
the largest real root is ≤ 0. -/
theorem c1_z_root_selection (g : GasR) (e : Eos) (p t : ℝ)
    (solver : ℝ → ℝ → ℝ → ℝ → List ℝ)
    (hsolver : ∀ r : ℝ, r ∈ solver (g.zPolyn e p t).a3 (g.zPolyn e p t).a2
        (g.zPolyn e p t).a1 (g.zPolyn e p t).a0 ↔ (g.zPolyn e p t).eval r = 0) :
    (∀ v, g.z e solver p t = some v →
        0 < v ∧ (g.zPolyn e p t).eval v = 0 ∧
          ∀ r, (g.zPolyn e p t).eval r = 0 → r ≤ v) ∧
      (g.z e solver p t = none ↔
        (∀ r, (g.zPolyn e p t).eval r ≠ 0) ∨
          ∃ v, (g.zPolyn e p t).eval v = 0 ∧
            (∀ r, (g.zPolyn e p t).eval r = 0 → r ≤ v) ∧ v ≤ 0) := by
  set c := g.zPolyn e p t with hc
  have hz : g.z e solver p t = zSelect (solver c.a3 c.a2 c.a1 c.a0) := rfl
  cases hL : solver c.a3 c.a2 c.a1 c.a0 with
  | nil =>
    rw [hL] at hz
    have hnone : g.z e solver p t = none := by rw [hz]; rfl
    constructor
    · intro v hv; rw [hnone] at hv; exact absurd hv (by simp)
    · rw [hnone]
      simp only [true_iff]
      left
      intro r hr
      have := (hsolver r).2 hr
      rw [hL] at this
      exact absurd this (by simp)
  | cons r rs =>
    rw [hL] at hz
    set m := rs.foldl max r with hm
    have hmem : m ∈ r :: rs := foldl_max_mem rs r
    have hub : ∀ x ∈ r :: rs, x ≤ m := by
      intro x hx
      rcases List.mem_cons.1 hx with h1 | h1
      · rw [h1]; exact (le_foldl_max rs r).1
      · exact (le_foldl_max rs r).2 x h1
    have hmroot : c.eval m = 0 := (hsolver m).1 (hL ▸ hmem)
    have hallle : ∀ x, c.eval x = 0 → x ≤ m := by
      intro x hx
      exact hub x (hL ▸ (hsolver x).2 hx)
    by_cases h0 : 0 < m
    · have hsome : g.z e solver p t = some m := by
        rw [hz]; simp only [zSelect, ← hm, if_pos h0]
      constructor
      · intro v hv
        rw [hsome] at hv
        have hvm : v = m := by injection hv.symm
        subst hvm
        exact ⟨h0, hmroot, hallle⟩
      · rw [hsome]
        simp only [reduceCtorEq, false_iff]
        push_neg
        refine ⟨⟨m, hmroot⟩, ?_⟩
        intro v hvroot hvub
        exact lt_of_lt_of_le h0 (hvub m hmroot)
    · have hnone : g.z e solver p t = none := by
        rw [hz]; simp only [zSelect, ← hm, if_neg h0]
      constructor
      · intro v hv; rw [hnone] at hv; exact absurd hv (by simp)
      · rw [hnone]
        simp only [true_iff]
        right
        exact ⟨m, hmroot, hallle, le_of_not_lt h0⟩

/-- Witness for C1 at a concrete input: the ideal-gas cubic with solver
output `[1]` yields `Z = 1 > 0`. -/
theorem c1_z_root_selection_witness :
    (GasR.molecule ⟨1, ⟨1, 1, 1⟩, 0⟩).z .idealGas (fun _ _ _ _ => [1]) 1 1 = some 1 ∧
      (0 : ℝ) < 1 := by
  have hs : ∀ r : ℝ, r ∈ (fun (_ _ _ _ : ℝ) => [(1 : ℝ)])
      ((GasR.molecule ⟨1, ⟨1, 1, 1⟩, 0⟩).zPolyn .idealGas 1 1).a3
      ((GasR.molecule ⟨1, ⟨1, 1, 1⟩, 0⟩).zPolyn .idealGas 1 1).a2
      ((GasR.molecule ⟨1, ⟨1, 1, 1⟩, 0⟩).zPolyn .idealGas 1 1).a1
      ((GasR.molecule ⟨1, ⟨1, 1, 1⟩, 0⟩).zPolyn .idealGas 1 1).a0 ↔
      ((GasR.molecule ⟨1, ⟨1, 1, 1⟩, 0⟩).zPolyn .idealGas 1 1).eval r = 0 := by
    intro r
    show r ∈ [(1 : ℝ)] ↔ (ZCubic.mk 0 0 1 (-1)).eval r = 0
    simp only [ZCubic.eval, List.mem_singleton]
    constructor
    · rintro rfl; norm_num
    · intro h; nlinarith [h]
  have h := c1_z_root_selection (GasR.molecule ⟨1, ⟨1, 1, 1⟩, 0⟩) .idealGas 1 1
    (fun _ _ _ _ => [1]) hs
  refine ⟨?_, by norm_num⟩
  show zSelect [1] = some 1
  simp [zSelect]

/-- C2: for every gas, pressure and temperature, the ideal-gas cubic
coefficients are `[0, 0, 1, -1]` (the degenerate cubic `Z - 1 = 0`), and —
assuming the external solver returns exactly the real roots of that
polynomial — root selection yields exactly `1`. -/
theorem c2_ideal_gas_z_one (g : GasR) (p t : ℝ)
    (solver : ℝ → ℝ → ℝ → ℝ → List ℝ)
    (hsolver : ∀ r : ℝ, r ∈ solver (g.zPolyn .idealGas p t).a3 (g.zPolyn .idealGas p t).a2
        (g.zPolyn .idealGas p t).a1 (g.zPolyn .idealGas p t).a0 ↔
        (g.zPolyn .idealGas p t).eval r = 0) :
    g.zPolyn .idealGas p t = ⟨0, 0, 1, -1⟩ ∧ g.z .idealGas solver p t = some 1 := by
  have hpoly : g.zPolyn .idealGas p t = ⟨0, 0, 1, -1⟩ := by
    cases g <;> rfl
  refine ⟨hpoly, ?_⟩
  have hroot1 : ∀ r : ℝ, (g.zPolyn .idealGas p t).eval r = 0 ↔ r = 1 := by
    intro r
    rw [hpoly]
    simp only [ZCubic.eval]
    constructor
    · intro h; nlinarith [h]
    · rintro rfl; norm_num
  have hz : g.z .idealGas solver p t =
      zSelect (solver (g.zPolyn .idealGas p t).a3 (g.zPolyn .idealGas p t).a2
        (g.zPolyn .idealGas p t).a1 (g.zPolyn .idealGas p t).a0) := rfl
  cases hL : solver (g.zPolyn .idealGas p t).a3 (g.zPolyn .idealGas p t).a2
      (g.zPolyn .idealGas p t).a1 (g.zPolyn .idealGas p t).a0 with
  | nil =>
    exfalso
    have h1 : (1 : ℝ) ∈ ([] : List ℝ) := by
      rw [← hL]
      exact (hsolver 1).2 ((hroot1 1).2 rfl)
    exact absurd h1 (by simp)
  | cons r rs =>
    have hall1 : ∀ x ∈ r :: rs, x = (1 : ℝ) := by
      intro x hx
      exact (hroot1 x).1 ((hsolver x).1 (hL ▸ hx))
    have hmax1 : rs.foldl max r = 1 := hall1 _ (foldl_max_mem rs r)
    rw [hz, hL]
    simp only [zSelect, hmax1]
    norm_num

/-- Witness for C2 at a concrete gas, pressure and temperature. -/
theorem c2_ideal_gas_z_one_witness :
    (GasR.molecule ⟨2, ⟨3, 4, 5⟩, 6⟩).zPolyn .idealGas 7 8 = ⟨0, 0, 1, -1⟩ ∧
      (GasR.molecule ⟨2, ⟨3, 4, 5⟩, 6⟩).z .idealGas (fun _ _ _ _ => [1]) 7 8 = some 1 := by
  refine c2_ideal_gas_z_one (GasR.molecule ⟨2, ⟨3, 4, 5⟩, 6⟩) 7 8 (fun _ _ _ _ => [1]) ?_
  intro r
  show r ∈ [(1 : ℝ)] ↔ (ZCubic.mk 0 0 1 (-1)).eval r = 0
  simp only [ZCubic.eval, List.mem_singleton]
  constructor
  · rintro rfl; norm_num
  · intro h; nlinarith [h]

lemma R_pos : (0 : ℝ) < R := by norm_num [R]

/-- Reduced Van der Waals round trip in the dimensionless variables. -/
lemma red_vdw (A B Z : ℝ) (hZB : Z - B ≠ 0) (hZ : Z ≠ 0)
    (hroot : 1 * Z ^ 3 + (-B - 1) * Z ^ 2 + A * Z + -(A * B) = 0) :
    1 / (Z - B) - A / (Z * Z) = 1 := by
  field_simp
  linear_combination -hroot

/-- Reduced Redlich-Kwong / Soave round trip in the dimensionless variables. -/
lemma red_rk (A B Z : ℝ) (hZB : Z - B ≠ 0) (hZ : Z ≠ 0) (hZpB : Z + B ≠ 0)
    (hroot : 1 * Z ^ 3 + (-1) * Z ^ 2 + (A - B * B - B) * Z + -(A * B) = 0) :
    1 / (Z - B) - A / (Z * (Z + B)) = 1 := by
  field_simp
  linear_combination -hroot

/-- Reduced Peng-Robinson round trip in the dimensionless variables. -/
lemma red_pr (A B Z : ℝ) (hZB : Z - B ≠ 0) (hden : Z * Z + 2 * B * Z - B * B ≠ 0)
    (hroot : 1 * Z ^ 3 + (B - 1) * Z ^ 2 + (-3 * B * B - 2 * B + A) * Z +
      (B * B * B + B * B - A * B) = 0) :
    1 / (Z - B) - A / (Z * Z + 2 * B * Z - B * B) = 1 := by
  field_simp
  linear_combination -hroot

/-- Reduced Patel-Teja-Valderrama round trip in the dimensionless variables. -/
lemma red_ptv (A B C Z : ℝ) (hZB : Z - B ≠ 0) (hden : Z * (Z + B) + C * (Z - B) ≠ 0)
    (hroot : 1 * Z ^ 3 + (C - 1) * Z ^ 2 + (-2 * B * C - B * B - B - C + A) * Z +
      (B * B * C + B * C - A * B) = 0) :
    1 / (Z - B) - A / (Z * (Z + B) + C * (Z - B)) = 1 := by
  field_simp
  linear_combination -hroot

/-- Round trip for Van der Waals at the molar volume derived from a root. -/
lemma lift_vdw (a b p t Z : ℝ) (hp : 0 < p) (ht : 0 < t)
    (hd1 : Z * R * t / p - b ≠ 0) (hd2 : (Z * R * t / p) * (Z * R * t / p) ≠ 0)
    (hroot : (VanDerWaals.z_polyn ⟨a, b⟩ p t).eval Z = 0) :
    VanDerWaals.pressure ⟨a, b⟩ (Z * R * t / p) t = p := by
  have hR : R ≠ 0 := ne_of_gt R_pos
  have hpne : p ≠ 0 := ne_of_gt hp
  have htne : t ≠ 0 := ne_of_gt ht
  have hZ0 : Z ≠ 0 := by
    rcases mul_ne_zero_iff.1 hd2 with ⟨h1, _⟩
    intro h
    apply h1
    rw [h]
    ring
  simp only [VanDerWaals.z_polyn, ZCubic.eval] at hroot
  set A := a * p / (R * R * t * t) with hA
  set B := b * p / (R * t) with hB
  have hZB : Z - B ≠ 0 := by
    intro h
    apply hd1
    rw [sub_eq_zero] at h
    rw [h, hB]
    field_simp
    ring
  have h1 := red_vdw A B Z hZB hZ0 (by linear_combination hroot)
  have hvb : Z * R * t / p - b = (Z - B) * (R * t) / p := by
    rw [hB]; field_simp; ring
  simp only [VanDerWaals.pressure]
  have key : R * t / (Z * R * t / p - b) - a / ((Z * R * t / p) * (Z * R * t / p)) =
      p * (1 / (Z - B) - A / (Z * Z)) := by
    rw [hvb, hA]
    field_simp
    ring
  rw [key, h1, mul_one]

/-- Round trip for the ideal gas law at the molar volume derived from a root. -/
lemma lift_ideal (p t Z : ℝ) (hp : 0 < p) (ht : 0 < t) (hd : Z * R * t / p ≠ 0)
    (hroot : (IdealGas.z_polyn () p t).eval Z = 0) :
    IdealGas.pressure () (Z * R * t / p) t = p := by
  have hR : R ≠ 0 := ne_of_gt R_pos
  have hpne : p ≠ 0 := ne_of_gt hp
  have htne : t ≠ 0 := ne_of_gt ht
  have hZ1 : Z = 1 := by
    simp only [IdealGas.z_polyn, ZCubic.eval] at hroot
    linarith [hroot]
  subst hZ1
  simp only [IdealGas.pressure]
  field_simp

/-- Round trip for Redlich-Kwong at the molar volume derived from a root. -/
lemma lift_rk (a b p t Z : ℝ) (hp : 0 < p) (ht : 0 < t)
    (hd1 : Z * R * t / p - b ≠ 0)
    (hd2 : Real.sqrt t * (Z * R * t / p) * (Z * R * t / p + b) ≠ 0)
    (hroot : (RedlichKwong.z_polyn ⟨a, b⟩ p t).eval Z = 0) :
    RedlichKwong.pressure ⟨a, b⟩ (Z * R * t / p) t = p := by
  have hR : R ≠ 0 := ne_of_gt R_pos
  have hpne : p ≠ 0 := ne_of_gt hp
  have htne : t ≠ 0 := ne_of_gt ht
  rcases mul_ne_zero_iff.1 hd2 with ⟨h12, hvpb⟩
  rcases mul_ne_zero_iff.1 h12 with ⟨hsq, hvm⟩
  have hZ0 : Z ≠ 0 := by
    intro h; apply hvm; rw [h]; ring
  have hpow : powf t 2.5 = t ^ 2 * Real.sqrt t := by
    show t ^ (2.5 : ℝ) = t ^ 2 * Real.sqrt t
    rw [show (2.5 : ℝ) = 2 + (1 / 2 : ℝ) by norm_num, Real.rpow_add ht, Real.sqrt_eq_rpow]
    norm_num
  simp only [RedlichKwong.z_polyn, ZCubic.eval] at hroot
  rw [hpow] at hroot
  set A := a * p / (R * R * (t ^ 2 * Real.sqrt t)) with hA
  set B := b * p / (R * t) with hB
  have hZB : Z - B ≠ 0 := by
    intro h
    apply hd1
    rw [sub_eq_zero] at h
    rw [h, hB]
    field_simp
    ring
  have hZpB : Z + B ≠ 0 := by
    intro h
    apply hvpb
    have hz : Z = -B := by linarith
    rw [hz, hB]
    field_simp
    ring
  have h1 := red_rk A B Z hZB hZ0 hZpB (by linear_combination hroot)
  have hvb : Z * R * t / p - b = (Z - B) * (R * t) / p := by
    rw [hB]; field_simp; ring
  have hvpb2 : Z * R * t / p + b = (Z + B) * (R * t) / p := by
    rw [hB]; field_simp; ring
  simp only [RedlichKwong.pressure]
  have key : R * t / (Z * R * t / p - b) -
      a / (Real.sqrt t * (Z * R * t / p) * (Z * R * t / p + b)) =
      p * (1 / (Z - B) - A / (Z * (Z + B))) := by
    rw [hvb, hvpb2, hA]
    field_simp
    ring
  rw [key, h1, mul_one]

/-- Round trip for Soave-Redlich-Kwong at the molar volume derived from a root. -/
lemma lift_srk (a b p t Z : ℝ) (hp : 0 < p) (ht : 0 < t)
    (hd1 : Z * R * t / p - b ≠ 0)
    (hd2 : (Z * R * t / p) * (Z * R * t / p + b) ≠ 0)
    (hroot : (SoaveRedlichKwong.z_polyn ⟨a, b⟩ p t).eval Z = 0) :
    SoaveRedlichKwong.pressure ⟨a, b⟩ (Z * R * t / p) t = p := by
  have hR : R ≠ 0 := ne_of_gt R_pos
  have hpne : p ≠ 0 := ne_of_gt hp
  have htne : t ≠ 0 := ne_of_gt ht
  rcases mul_ne_zero_iff.1 hd2 with ⟨hvm, hvpb⟩
  have hZ0 : Z ≠ 0 := by
    intro h; apply hvm; rw [h]; ring
  simp only [SoaveRedlichKwong.z_polyn, ZCubic.eval] at hroot
  set A := a * p / (R * R * t * t) with hA
  set B := b * p / (R * t) with hB
  have hZB : Z - B ≠ 0 := by
    intro h
    apply hd1
    rw [sub_eq_zero] at h
    rw [h, hB]
    field_simp
    ring
  have hZpB : Z + B ≠ 0 := by
    intro h
    apply hvpb
    have hz : Z = -B := by linarith
    rw [hz, hB]
    field_simp
    ring
  have h1 := red_rk A B Z hZB hZ0 hZpB (by linear_combination hroot)
  have hvb : Z * R * t / p - b = (Z - B) * (R * t) / p := by
    rw [hB]; field_simp; ring
  have hvpb2 : Z * R * t / p + b = (Z + B) * (R * t) / p := by
    rw [hB]; field_simp; ring
  simp only [SoaveRedlichKwong.pressure]
  have key : R * t / (Z * R * t / p - b) - a / ((Z * R * t / p) * (Z * R * t / p + b)) =
      p * (1 / (Z - B) - A / (Z * (Z + B))) := by
    rw [hvb, hvpb2, hA]
    field_simp
    ring
  rw [key, h1, mul_one]

/-- Round trip for Peng-Robinson at the molar volume derived from a root. -/
lemma lift_pr (a b p t Z : ℝ) (hp : 0 < p) (ht : 0 < t)
    (hd1 : Z * R * t / p - b ≠ 0)
    (hd2 : (Z * R * t / p) * (Z * R * t / p) + 2 * b * (Z * R * t / p) - b * b ≠ 0)
    (hroot : (PengRobinson.z_polyn ⟨a, b⟩ p t).eval Z = 0) :
    PengRobinson.pressure ⟨a, b⟩ (Z * R * t / p) t = p := by
  have hR : R ≠ 0 := ne_of_gt R_pos
  have hpne : p ≠ 0 := ne_of_gt hp
  have htne : t ≠ 0 := ne_of_gt ht
  simp only [PengRobinson.z_polyn, ZCubic.eval] at hroot
  set A := a * p / (R * R * t * t) with hA
  set B := b * p / (R * t) with hB
  have hZB : Z - B ≠ 0 := by
    intro h
    apply hd1
    rw [sub_eq_zero] at h
    rw [h, hB]
    field_simp
    ring
  have hiden : (Z * R * t / p) * (Z * R * t / p) + 2 * b * (Z * R * t / p) - b * b =
      ((R * t / p) * (R * t / p)) * (Z * Z + 2 * B * Z - B * B) := by
    rw [hB]; field_simp; ring
  have hdR : Z * Z + 2 * B * Z - B * B ≠ 0 := by
    intro h
    apply hd2
    rw [hiden, h]
    ring
  have h1 := red_pr A B Z hZB hdR (by linear_combination hroot)
  have hvb : Z * R * t / p - b = (Z - B) * (R * t) / p := by
    rw [hB]; field_simp; ring
  simp only [PengRobinson.pressure]
  have key : R * t / (Z * R * t / p - b) -
      a / ((Z * R * t / p) * (Z * R * t / p) + 2 * b * (Z * R * t / p) - b * b) =
      p * (1 / (Z - B) - A / (Z * Z + 2 * B * Z - B * B)) := by
    rw [hiden, hvb, hA]
    field_simp
    ring
  rw [key, h1, mul_one]

/-- Round trip for Patel-Teja-Valderrama at the molar volume derived from a root. -/
lemma lift_ptv (a b c p t Z : ℝ) (hp : 0 < p) (ht : 0 < t)
    (hd1 : Z * R * t / p - b ≠ 0)
    (hd2 : (Z * R * t / p) * (Z * R * t / p + b) + c * (Z * R * t / p - b) ≠ 0)
    (hroot : (PatelTejaValderrama.z_polyn ⟨a, b, c⟩ p t).eval Z = 0) :
    PatelTejaValderrama.pressure ⟨a, b, c⟩ (Z * R * t / p) t = p := by
  have hR : R ≠ 0 := ne_of_gt R_pos
  have hpne : p ≠ 0 := ne_of_gt hp
  have htne : t ≠ 0 := ne_of_gt ht
  simp only [PatelTejaValderrama.z_polyn, ZCubic.eval] at hroot
  set A := a * p / (R * R * t * t) with hA
  set B := b * p / (R * t) with hB
  set C := c * p / (R * t) with hC
  have hZB : Z - B ≠ 0 := by
    intro h
    apply hd1
    rw [sub_eq_zero] at h
    rw [h, hB]
    field_simp
    ring
  have hiden : (Z * R * t / p) * (Z * R * t / p + b) + c * (Z * R * t / p - b) =
      ((R * t / p) * (R * t / p)) * (Z * (Z + B) + C * (Z - B)) := by
    rw [hB, hC]; field_simp; ring
  have hdR : Z * (Z + B) + C * (Z - B) ≠ 0 := by
    intro h
    apply hd2
    rw [hiden, h]
    ring
  have h1 := red_ptv A B C Z hZB hdR (by linear_combination hroot)
  have hvb : Z * R * t / p - b = (Z - B) * (R * t) / p := by
    rw [hB]; field_simp; ring
  simp only [PatelTejaValderrama.pressure]
  have key : R * t / (Z * R * t / p - b) -
      a / ((Z * R * t / p) * (Z * R * t / p + b) + c * (Z * R * t / p - b)) =
      p * (1 / (Z - B) - A / (Z * (Z + B) + C * (Z - B))) := by
    rw [hiden, hvb, hA]
    field_simp
    ring
  rw [key, h1, mul_one]

/-- C3: for every EoS variant, the pressure formula and the z-polynomial are
algebraically consistent: for all parameters, `p > 0`, `t > 0`, whenever `Z`
is a real root of `z_polyn params p t` and the denominators of the pressure
formula are nonzero at `vm = Z*R*t/p`, then `pressure params vm t = p`. -/
theorem c3_pressure_z_polyn_roundtrip (p t : ℝ) (hp : 0 < p) (ht : 0 < t) :
    (∀ Z : ℝ, (IdealGas.z_polyn () p t).eval Z = 0 → Z * R * t / p ≠ 0 →
      IdealGas.pressure () (Z * R * t / p) t = p) ∧
    (∀ prm : AbParams, ∀ Z : ℝ, (VanDerWaals.z_polyn prm p t).eval Z = 0 →
      Z * R * t / p - prm.b ≠ 0 → (Z * R * t / p) * (Z * R * t / p) ≠ 0 →
      VanDerWaals.pressure prm (Z * R * t / p) t = p) ∧
    (∀ prm : AbParams, ∀ Z : ℝ, (RedlichKwong.z_polyn prm p t).eval Z = 0 →
      Z * R * t / p - prm.b ≠ 0 →
      Real.sqrt t * (Z * R * t / p) * (Z * R * t / p + prm.b) ≠ 0 →
      RedlichKwong.pressure prm (Z * R * t / p) t = p) ∧
    (∀ prm : AbParams, ∀ Z : ℝ, (SoaveRedlichKwong.z_polyn prm p t).eval Z = 0 →
      Z * R * t / p - prm.b ≠ 0 → (Z * R * t / p) * (Z * R * t / p + prm.b) ≠ 0 →
      SoaveRedlichKwong.pressure prm (Z * R * t / p) t = p) ∧
    (∀ prm : AbParams, ∀ Z : ℝ, (PengRobinson.z_polyn prm p t).eval Z = 0 →
      Z * R * t / p - prm.b ≠ 0 →
      (Z * R * t / p) * (Z * R * t / p) + 2 * prm.b * (Z * R * t / p) - prm.b * prm.b ≠ 0 →
      PengRobinson.pressure prm (Z * R * t / p) t = p) ∧
    (∀ prm : AbcParams, ∀ Z : ℝ, (PatelTejaValderrama.z_polyn prm p t).eval Z = 0 →
      Z * R * t / p - prm.b ≠ 0 →
      (Z * R * t / p) * (Z * R * t / p + prm.b) + prm.c * (Z * R * t / p - prm.b) ≠ 0 →
      PatelTejaValderrama.pressure prm (Z * R * t / p) t = p) := by
  refine ⟨?_, ?_, ?_, ?_, ?_, ?_⟩
  · intro Z h1 h2
    exact lift_ideal p t Z hp ht h2 h1
  · rintro ⟨a, b⟩ Z h1 h2 h3
    exact lift_vdw a b p t Z hp ht h2 h3 h1
  · rintro ⟨a, b⟩ Z h1 h2 h3
    exact lift_rk a b p t Z hp ht h2 h3 h1
  · rintro ⟨a, b⟩ Z h1 h2 h3
    exact lift_srk a b p t Z hp ht h2 h3 h1
  · rintro ⟨a, b⟩ Z h1 h2 h3
    exact lift_pr a b p t Z hp ht h2 h3 h1
  · rintro ⟨a, b, c⟩ Z h1 h2 h3
    exact lift_ptv a b c p t Z hp ht h2 h3 h1

/-- Witness for C3 at `p = t = 1`, zero parameters, root `Z = 1`. -/
theorem c3_pressure_z_polyn_roundtrip_witness :
    IdealGas.pressure () (1 * R * 1 / 1) 1 = 1 ∧
    VanDerWaals.pressure ⟨0, 0⟩ (1 * R * 1 / 1) 1 = 1 ∧
    RedlichKwong.pressure ⟨0, 0⟩ (1 * R * 1 / 1) 1 = 1 ∧
    SoaveRedlichKwong.pressure ⟨0, 0⟩ (1 * R * 1 / 1) 1 = 1 ∧
    PengRobinson.pressure ⟨0, 0⟩ (1 * R * 1 / 1) 1 = 1 ∧
    PatelTejaValderrama.pressure ⟨0, 0, 0⟩ (1 * R * 1 / 1) 1 = 1 := by
  have h := c3_pressure_z_polyn_roundtrip 1 1 one_pos one_pos
  refine ⟨h.1 1 ?_ ?_,
    h.2.1 ⟨0, 0⟩ 1 ?_ ?_ ?_,
    h.2.2.1 ⟨0, 0⟩ 1 ?_ ?_ ?_,
    h.2.2.2.1 ⟨0, 0⟩ 1 ?_ ?_ ?_,
    h.2.2.2.2.1 ⟨0, 0⟩ 1 ?_ ?_ ?_,
    h.2.2.2.2.2 ⟨0, 0, 0⟩ 1 ?_ ?_ ?_⟩
  · norm_num [IdealGas.z_polyn, ZCubic.eval]
  · norm_num [R]
  · norm_num [VanDerWaals.z_polyn, ZCubic.eval]
  · norm_num [R]
  · norm_num [R]
  · norm_num [RedlichKwong.z_polyn, ZCubic.eval]
  · norm_num [R]
  · norm_num [R, Real.sqrt_one]
  · norm_num [SoaveRedlichKwong.z_polyn, ZCubic.eval]
  · norm_num [R]
  · norm_num [R]
  · norm_num [PengRobinson.z_polyn, ZCubic.eval]
  · norm_num [R]
  · norm_num [R]
  · norm_num [PatelTejaValderrama.z_polyn, ZCubic.eval]
  · norm_num [R]
  · norm_num [R]

/-- A foldl accumulating additions equals the seed plus the list sum. -/
lemma foldl_add_sum {α : Type} (f : α → ℝ) :
    ∀ (l : List α) (s : ℝ), l.foldl (fun acc x => acc + f x) s = s + (l.map f).sum := by
  intro l
  induction l with
  | nil => intro s; simp
  | cons x xs ih =>
    intro s
    simp only [List.foldl_cons, List.map_cons, List.sum_cons, ih]
    ring

/-- Closed form of the accumulating loop of `AbParams.mix`. -/
lemma abmix_foldl (m : List (ℝ × AbParams)) :
    ∀ (l : List (ℝ × AbParams)) (acc : AbParams),
      List.foldl (fun acc fp => AbParams.mk
          (acc.a + List.foldl (fun s fq => s + fp.1 * fq.1 * Real.sqrt (fp.2.a * fq.2.a)) 0 m)
          (acc.b + fp.1 * fp.2.b)) acc l =
        ⟨acc.a + (l.map (fun fp =>
            (m.map (fun fq => fp.1 * fq.1 * Real.sqrt (fp.2.a * fq.2.a))).sum)).sum,
          acc.b + (l.map (fun fp => fp.1 * fp.2.b)).sum⟩ := by
  intro l
  induction l with
  | nil =>
    intro acc
    simp only [List.foldl_nil, List.map_nil, List.sum_nil, add_zero]
  | cons x xs ih =>
    intro acc
    simp only [List.foldl_cons]
    rw [ih]
    simp only [foldl_add_sum, List.map_cons, List.sum_cons, AbParams.mk.injEq]
    constructor <;> ring

/-- Closed form of the accumulating loop of `AbcParams.mix`. -/
lemma abcmix_foldl (m : List (ℝ × AbcParams)) :
    ∀ (l : List (ℝ × AbcParams)) (acc : AbcParams),
      List.foldl (fun acc fp => AbcParams.mk
          (acc.a + List.foldl (fun s fq => s + fp.1 * fq.1 * Real.sqrt (fp.2.a * fq.2.a)) 0 m)
          (acc.b + fp.1 * fp.2.b) (acc.c + fp.1 * fp.2.c)) acc l =
        ⟨acc.a + (l.map (fun fp =>
            (m.map (fun fq => fp.1 * fq.1 * Real.sqrt (fp.2.a * fq.2.a))).sum)).sum,
          acc.b + (l.map (fun fp => fp.1 * fp.2.b)).sum,
          acc.c + (l.map (fun fp => fp.1 * fp.2.c)).sum⟩ := by
  intro l
  induction l with
  | nil =>
    intro acc
    simp only [List.foldl_nil, List.map_nil, List.sum_nil, add_zero]
  | cons x xs ih =>
    intro acc
    simp only [List.foldl_cons]
    rw [ih]
    simp only [foldl_add_sum, List.map_cons, List.sum_cons, AbcParams.mk.injEq]
    refine ⟨by ring, by ring, by ring⟩

/-- C4: mixing rules.  The attraction parameter mixes as the full double sum
`Σ_i Σ_j f_i f_j sqrt(a_i a_j)` (including `i = j`), the volume parameters
`b` (and `c` for the three-parameter variant) mix linearly, ideal-gas mixing
yields the empty parameter set, and a mixture's `eos_params` is the mixing
rule applied to the per-component parameters. -/
theorem c4_mixing_rules (l : List (ℝ × AbParams)) (l3 : List (ℝ × AbcParams))
    (lu : List (ℝ × Unit)) :
    (AbParams.mix l).a = (l.map (fun fi =>
        (l.map (fun fj => fi.1 * fj.1 * Real.sqrt (fi.2.a * fj.2.a))).sum)).sum ∧
    (AbParams.mix l).b = (l.map (fun fi => fi.1 * fi.2.b)).sum ∧
    (AbcParams.mix l3).a = (l3.map (fun fi =>
        (l3.map (fun fj => fi.1 * fj.1 * Real.sqrt (fi.2.a * fj.2.a))).sum)).sum ∧
    (AbcParams.mix l3).b = (l3.map (fun fi => fi.1 * fi.2.b)).sum ∧
    (AbcParams.mix l3).c = (l3.map (fun fi => fi.1 * fi.2.c)).sum ∧
    unitMix lu = () ∧
    (∀ (P : Type) (paramsFn : CriticalState → ℝ → ℝ → P) (mixFn : List (ℝ × P) → P)
      (mx : MixtureR) (t : ℝ),
      gasParams paramsFn mixFn (GasR.mixture mx) t =
        mixFn (mx.comps.map fun fm => (fm.1, paramsFn fm.2.critical_state fm.2.w t))) := by
  refine ⟨?_, ?_, ?_, ?_, ?_, rfl, fun P paramsFn mixFn mx t => rfl⟩
  · rw [AbParams.mix, abmix_foldl l l ⟨0, 0⟩]
    simp
  · rw [AbParams.mix, abmix_foldl l l ⟨0, 0⟩]
    simp
  · rw [AbcParams.mix, abcmix_foldl l3 l3 ⟨0, 0, 0⟩]
    simp
  · rw [AbcParams.mix, abcmix_foldl l3 l3 ⟨0, 0, 0⟩]
    simp
  · rw [AbcParams.mix, abcmix_foldl l3 l3 ⟨0, 0, 0⟩]
    simp

/-- C5: the Peng-Robinson parameter computation branches on the acentric
factor at `w ≤ 0.491` between the 3-term and 4-term `m` polynomials, and in
both branches `alpha = (1 + m*(1 - sqrt(t/Tc)))^2` multiplies the attraction
parameter, while `b` is temperature-independent. -/
theorem c5_peng_robinson_params (cs : CriticalState) (w t : ℝ) :
    PengRobinson.params cs w t =
      ⟨(1 + (if w ≤ 0.491 then 0.37464 + 1.56226 * w - 0.26992 * w ^ 2
            else 0.379642 + 1.487503 * w - 0.164423 * w ^ 2 - 0.016666 * w ^ 3) *
          (1 - Real.sqrt (t / cs.t))) ^ 2 * 0.4572355289213821 * R ^ 2 * cs.t ^ 2 / cs.p,
        0.07779607390388844 * R * cs.t / cs.p⟩ := by
  simp only [PengRobinson.params]
  split_ifs with h
  · simp only [AbParams.mk.injEq]
    exact ⟨by ring, trivial⟩
  · simp only [AbParams.mk.injEq]
    exact ⟨by ring, trivial⟩

/-- Exact model of an f64 molar fraction: either NaN or an exact rational. -/
inductive Fl where
  | nan : Fl
  | num (q : ℚ) : Fl
deriving DecidableEq

/-- Model of `f64::is_nan`. -/
def Fl.isNan : Fl → Bool
  | .nan => true
  | .num _ => false

/-- f64 multiplication restricted to the NaN-or-exact fragment. -/
def Fl.mul : Fl → Fl → Fl
  | .nan, _ => .nan
  | .num _, .nan => .nan
  | .num a, .num b => .num (a * b)

/-- Model of f64 `<=`: false whenever either side is NaN. -/
def Fl.le : Fl → Fl → Prop
  | .nan, _ => False
  | .num _, .nan => False
  | .num a, .num b => a ≤ b

instance : ∀ x y : Fl, Decidable (Fl.le x y) := fun x y => by
  unfold Fl.le
  cases x <;> cases y <;> infer_instance

/-- Numeric value of a non-NaN fraction (0 for NaN, which `Mixture::new`
never reads after void attribution). -/
def Fl.toQ : Fl → ℚ
  | .nan => 0
  | .num q => q

/-- Pvt with rational components, serving as a molecule's critical state
(src/lib/lib.rs `Pvt`). -/
structure PvtQ where
  p : ℚ
  v : ℚ
  t : ℚ
deriving DecidableEq

/-- A gas molecule (src/lib/gas.rs `Molecule`), with exact rational fields. -/
structure MoleculeQ where
  m : ℚ
  critical_state : PvtQ
  w : ℚ
deriving DecidableEq

/-- A mixture of several gases (src/lib/gas.rs `Mixture`). -/
structure MixtureQ where
  comps : List (ℚ × MoleculeQ)
deriving DecidableEq

/-- A generic gas (src/lib/gas.rs `Gas`). -/
inductive GasQ where
  | molecule (m : MoleculeQ)
  | mixture (mx : MixtureQ)
deriving DecidableEq

/-- A mixture error (`MixtureError`). -/
inductive MixtureErrorQ where
  | mixtureNotWhole
  | invalidFraction (f : Fl)
deriving DecidableEq

/-- A component to build a mixture (`Comp`). -/
inductive CompQ where
  | factor (f : Fl) (g : GasQ)
  | remainder (g : GasQ)

/-- The fraction/gas pair extracted at the top of the `Mixture::new` loop:
a `Comp::Remainder` is turned into a NaN fraction. -/
def compFG : CompQ → Fl × GasQ
  | .factor f g => (f, g)
  | .remainder g => (.nan, g)

/-- f64 `partial_cmp`, which on exact (never-NaN) rationals is always `some`
of the total comparison. -/
def qpcmp (a b : ℚ) : Option Ordering :=
  some (if a < b then .lt else if a = b then .eq else .gt)

/-- Derived `PartialOrd` of `Pvt`: lexicographic on `p`, `v`, `t`. -/
def pvtPcmp (x y : PvtQ) : Option Ordering :=
  match qpcmp x.p y.p with
  | some .eq =>
    match qpcmp x.v y.v with
    | some .eq => qpcmp x.t y.t
    | o => o
  | o => o

/-- The manual `PartialOrd for Molecule` (src/lib/gas.rs lines 15-22): molar
mass comparison, `or_else` critical state, `or_else` acentric factor.  Since
`or_else` only fires on `None`, the later fields are consulted only when a
comparison is undefined (NaN), never on ties. -/
def molPcmp (x y : MoleculeQ) : Option Ordering :=
  (qpcmp x.m y.m).orElse fun _ =>
    (pvtPcmp x.critical_state y.critical_state).orElse fun _ => qpcmp x.w y.w

/-- Tuple `PartialOrd` on `(f64, &Molecule)`: lexicographic. -/
def pairPcmp (x y : ℚ × MoleculeQ) : Option Ordering :=
  match qpcmp x.1 y.1 with
  | some .eq => molPcmp x.2 y.2
  | o => o

/-- The sort comparator of `Mixture::new` (line 126):
`Reverse((fa, ma)).partial_cmp(&Reverse((fb, mb))).unwrap()`.  `Reverse`
swaps the operands; the comparison is always defined on exact rationals, so
`unwrap` is modelled by `getD`. -/
def sortCmp (x y : ℚ × MoleculeQ) : Ordering := (pairPcmp y x).getD .eq

/-- Permission for `x` to appear no later than `y` in the sorted vector. -/
def sLe (x y : ℚ × MoleculeQ) : Prop := sortCmp x y ≠ .gt

instance : ∀ x y : ℚ × MoleculeQ, Decidable (sLe x y) := fun x y => by
  unfold sLe
  infer_instance

/-- Stable insertion into a sorted list: an element is inserted after every
element it ties with, as Rust's stable `sort_by` keeps tied elements in
input order. -/
def sInsert (x : ℚ × MoleculeQ) : List (ℚ × MoleculeQ) → List (ℚ × MoleculeQ)
  | [] => [x]
  | y :: ys => if sLe x y then x :: y :: ys else y :: sInsert x ys

/-- Stable sort by `sortCmp`, extensionally equal to `slice::sort_by` (also a
stable sort by the same total comparator). -/
def sSort : List (ℚ × MoleculeQ) → List (ℚ × MoleculeQ)
  | [] => []
  | x :: xs => sInsert x (sSort xs)

/-- The merge loop of `Mixture::new` (lines 133-143): adjacent entries with
identical molecules are merged, summing fractions.  `mergeInto` carries the
entry currently being merged into (`comps[i1]`). -/
def mergeInto (acc : ℚ × MoleculeQ) : List (ℚ × MoleculeQ) → List (ℚ × MoleculeQ)
  | [] => [acc]
  | x :: xs =>
    if acc.2 = x.2 then mergeInto (acc.1 + x.1, acc.2) xs
    else acc :: mergeInto x xs

/-- Merge pass over the whole sorted vector. -/
def mergeAdj : List (ℚ × MoleculeQ) → List (ℚ × MoleculeQ)
  | [] => []
  | x :: xs => mergeInto x xs

/-- One iteration of the accumulation loop of `Mixture::new` (lines 66-95):
validates and sums the explicit fraction, counts voids, and flattens the
component into `tmp` entries `(remainder_flag, fraction, molecule)`. -/
def step (acc : List (Bool × Fl × MoleculeQ) × ℚ × ℕ) (c : CompQ) :
    Except MixtureErrorQ (List (Bool × Fl × MoleculeQ) × ℚ × ℕ) :=
  let f := (compFG c).1
  let g := (compFG c).2
  if f.isNan then
    match g with
    | .molecule m => .ok (acc.1 ++ [(true, f, m)], acc.2.1, acc.2.2 + 1)
    | .mixture mx =>
        .ok (acc.1 ++ mx.comps.map (fun c0 => (true, Fl.num c0.1, c0.2)),
          acc.2.1, acc.2.2 + 1)
  else if f.le (.num 0) ∨ (Fl.num 1).le f then
    .error (.invalidFraction f)
  else
    match g with
    | .molecule m => .ok (acc.1 ++ [(false, f, m)], acc.2.1 + f.toQ, acc.2.2)
    | .mixture mx =>
        .ok (acc.1 ++ mx.comps.map (fun c0 => (false, f.mul (Fl.num c0.1), c0.2)),
          acc.2.1 + f.toQ, acc.2.2)

/-- The accumulation loop itself, with its early return on an invalid
fraction. -/
def phase1 : List CompQ → (List (Bool × Fl × MoleculeQ) × ℚ × ℕ) →
    Except MixtureErrorQ (List (Bool × Fl × MoleculeQ) × ℚ × ℕ)
  | [], acc => .ok acc
  | c :: cs, acc =>
    match step acc c with
    | .error e => .error e
    | .ok acc' => phase1 cs acc'

/-- Void attribution (lines 104-115): a remainder-flagged entry receives the
void weight, or is scaled by it when it came from a nested mixture. -/
def attrib (va : ℚ) (e : Bool × Fl × MoleculeQ) : Bool × Fl × MoleculeQ :=
  if e.1 then (e.1, if e.2.1.isNan then Fl.num va else e.2.1.mul (Fl.num va), e.2.2) else e

/-- `Mixture::new` (src/lib/gas.rs lines 57-149). -/
def MixtureQ.new (comps : List CompQ) : Except MixtureErrorQ MixtureQ :=
  match phase1 comps ([], 0, 0) with
  | .error e => .error e
  | .ok (tmp, fill, num_voids) =>
    if 1 < fill then .error .mixtureNotWhole
    else if fill ≠ 1 ∧ num_voids = 0 then .error .mixtureNotWhole
    else
      let tmp2 := if 0 < num_voids then
          tmp.map (attrib ((1 - fill) / (num_voids : ℚ)))
        else tmp
      .ok ⟨mergeAdj (sSort (tmp2.map (fun e => (e.2.1.toQ, e.2.2))))⟩

/-- Entries pushed into `tmp` for one component. -/
def entriesOf (c : CompQ) : List (Bool × Fl × MoleculeQ) :=
  match (compFG c).2 with
  | .molecule m => [((compFG c).1.isNan, (compFG c).1, m)]
  | .mixture mx => mx.comps.map (fun c0 =>
      if (compFG c).1.isNan then (true, Fl.num c0.1, c0.2)
      else (false, (compFG c).1.mul (Fl.num c0.1), c0.2))

/-- Contribution of one component to `fill`. -/
def fillOf (c : CompQ) : ℚ := if (compFG c).1.isNan then 0 else (compFG c).1.toQ

/-- Contribution of one component to `num_voids`. -/
def voidsOf (c : CompQ) : ℕ := if (compFG c).1.isNan then 1 else 0

/-- A component passes the per-fraction validity check: it is a void (NaN
fraction) or its explicit fraction is neither ≤ 0 nor ≥ 1. -/
def compOk (c : CompQ) : Prop :=
  (compFG c).1.isNan = true ∨ ¬((compFG c).1.le (.num 0) ∨ (Fl.num 1).le (compFG c).1)

instance : ∀ c : CompQ, Decidable (compOk c) := fun c => by
  unfold compOk
  infer_instance

/-- Total explicit fill of an input list. -/
def fillSum (comps : List CompQ) : ℚ := (comps.map fillOf).sum

/-- Total void count of an input list. -/
def voidSum (comps : List CompQ) : ℕ := (comps.map voidsOf).sum

lemma step_ok (c : CompQ) (h : compOk c) (tmp : List (Bool × Fl × MoleculeQ))
    (fill : ℚ) (nv : ℕ) :
    step (tmp, fill, nv) c = .ok (tmp ++ entriesOf c, fill + fillOf c, nv + voidsOf c) := by
  by_cases hn : (compFG c).1.isNan = true
  · cases hg : (compFG c).2 with
    | molecule m =>
      simp [step, entriesOf, fillOf, voidsOf, hn, hg]
    | mixture mx =>
      simp [step, entriesOf, fillOf, voidsOf, hn, hg]
  · have hval : ¬((compFG c).1.le (.num 0) ∨ (Fl.num 1).le (compFG c).1) := by
      rcases h with h1 | h1
      · exact absurd h1 hn
      · exact h1
    have hn2 : (compFG c).1.isNan = false := by
      cases hh : (compFG c).1.isNan
      · rfl
      · exact absurd hh hn
    cases hg : (compFG c).2 with
    | molecule m =>
      simp [step, entriesOf, fillOf, voidsOf, hn2, hg, hval]
    | mixture mx =>
      simp [step, entriesOf, fillOf, voidsOf, hn2, hg, hval]

lemma phase1_ok : ∀ (comps : List CompQ), (∀ c ∈ comps, compOk c) →
    ∀ (tmp : List (Bool × Fl × MoleculeQ)) (fill : ℚ) (nv : ℕ),
    phase1 comps (tmp, fill, nv) =
      .ok (tmp ++ comps.flatMap entriesOf, fill + fillSum comps, nv + voidSum comps) := by
  intro comps
  induction comps with
  | nil =>
    intro _ tmp fill nv
    simp [phase1, fillSum, voidSum]
  | cons c cs ih =>
    intro h tmp fill nv
    have hc : compOk c := h c (by simp)
    have hcs : ∀ x ∈ cs, compOk x := fun x hx => h x (by simp [hx])
    have hstep := step_ok c hc tmp fill nv
    simp only [phase1, hstep]
    rw [ih hcs]
    simp [fillSum, voidSum, List.flatMap_cons, add_assoc, List.append_assoc]

/-- The first invalid explicit fraction of the input, if any: this is the
fraction whose check aborts the loop of `Mixture::new`. -/
def firstBad : List CompQ → Option Fl
  | [] => none
  | c :: cs =>
    if (compFG c).1.isNan then firstBad cs
    else if (compFG c).1.le (.num 0) ∨ (Fl.num 1).le (compFG c).1 then some (compFG c).1
    else firstBad cs

lemma step_err (c : CompQ) (hn : (compFG c).1.isNan = false)
    (hval : (compFG c).1.le (.num 0) ∨ (Fl.num 1).le (compFG c).1)
    (acc : List (Bool × Fl × MoleculeQ) × ℚ × ℕ) :
    step acc c = .error (.invalidFraction (compFG c).1) := by
  simp [step, hn, hval]

lemma firstBad_some : ∀ (comps : List CompQ) (f : Fl), firstBad comps = some f →
    ((f.le (.num 0) ∨ (Fl.num 1).le f) ∧ ∃ c ∈ comps, (compFG c).1 = f) ∧
      ∀ acc, phase1 comps acc = .error (.invalidFraction f) := by
  intro comps
  induction comps with
  | nil => intro f h; exact absurd h (by simp [firstBad])
  | cons c cs ih =>
    intro f h
    by_cases hn : (compFG c).1.isNan = true
    · rw [firstBad, if_pos hn] at h
      obtain ⟨⟨hval, cw, hcw, hfw⟩, hph⟩ := ih f h
      refine ⟨⟨hval, cw, by simp [hcw], hfw⟩, ?_⟩
      intro acc
      have hcok : compOk c := Or.inl hn
      rw [show phase1 (c :: cs) acc =
          (match step acc c with
            | Except.error e => Except.error e
            | Except.ok acc' => phase1 cs acc') from rfl]
      obtain ⟨tmp, fill, nv⟩ := acc
      rw [step_ok c hcok]
      exact hph _
    · have hn2 : (compFG c).1.isNan = false := by
        cases hh : (compFG c).1.isNan
        · rfl
        · exact absurd hh hn
      rw [firstBad, hn2] at h
      simp only [Bool.false_eq_true, if_false] at h
      by_cases hval : (compFG c).1.le (.num 0) ∨ (Fl.num 1).le (compFG c).1
      · rw [if_pos hval] at h
        have hf : (compFG c).1 = f := by injection h
        subst hf
        refine ⟨⟨hval, c, by simp, rfl⟩, ?_⟩
        intro acc
        rw [show phase1 (c :: cs) acc =
            (match step acc c with
              | Except.error e => Except.error e
              | Except.ok acc' => phase1 cs acc') from rfl]
        rw [step_err c hn2 hval]
      · rw [if_neg hval] at h
        obtain ⟨⟨hv2, cw, hcw, hfw⟩, hph⟩ := ih f h
        refine ⟨⟨hv2, cw, by simp [hcw], hfw⟩, ?_⟩
        intro acc
        have hcok : compOk c := Or.inr hval
        rw [show phase1 (c :: cs) acc =
            (match step acc c with
              | Except.error e => Except.error e
              | Except.ok acc' => phase1 cs acc') from rfl]
        obtain ⟨tmp, fill, nv⟩ := acc
        rw [step_ok c hcok]
        exact hph _

lemma firstBad_none : ∀ (comps : List CompQ), firstBad comps = none →
    ∀ c ∈ comps, compOk c := by
  intro comps
  induction comps with
  | nil => intro _ c hc; exact absurd hc (by simp)
  | cons c cs ih =>
    intro h x hx
    by_cases hn : (compFG c).1.isNan = true
    · rw [firstBad, if_pos hn] at h
      rcases List.mem_cons.1 hx with h1 | h1
      · subst h1; exact Or.inl hn
      · exact ih h x h1
    · have hn2 : (compFG c).1.isNan = false := by
        cases hh : (compFG c).1.isNan
        · rfl
        · exact absurd hh hn
      rw [firstBad, hn2] at h
      simp only [Bool.false_eq_true, if_false] at h
      by_cases hval : (compFG c).1.le (.num 0) ∨ (Fl.num 1).le (compFG c).1
      · rw [if_pos hval] at h
        exact absurd h (by simp)
      · rw [if_neg hval] at h
        rcases List.mem_cons.1 hx with h1 | h1
        · subst h1; exact Or.inr hval
        · exact ih h x h1

lemma exists_bad_firstBad (comps : List CompQ) (h : ∃ c ∈ comps, ¬ compOk c) :
    ∃ f, firstBad comps = some f := by
  cases hfb : firstBad comps with
  | none =>
    obtain ⟨c, hc, hbad⟩ := h
    exact absurd (firstBad_none comps hfb c hc) hbad
  | some f => exact ⟨f, rfl⟩

/-- Closed form of `Mixture::new` on inputs whose explicit fractions are all
valid. -/
lemma new_eq (comps : List CompQ) (hv : ∀ c ∈ comps, compOk c) :
    MixtureQ.new comps =
      if 1 < fillSum comps then .error .mixtureNotWhole
      else if fillSum comps ≠ 1 ∧ voidSum comps = 0 then .error .mixtureNotWhole
      else .ok ⟨mergeAdj (sSort ((if 0 < voidSum comps then
          (comps.flatMap entriesOf).map
            (attrib ((1 - fillSum comps) / (voidSum comps : ℚ)))
        else comps.flatMap entriesOf).map (fun e => (e.2.1.toQ, e.2.2))))⟩ := by
  unfold MixtureQ.new
  rw [phase1_ok comps hv [] 0 0]
  simp only [List.nil_append, zero_add]

/-- A sample molecule (molar mass 28). -/
def molA : MoleculeQ := ⟨28, ⟨1, 2, 3⟩, 1⟩

/-- A sample molecule (molar mass 32). -/
def molB : MoleculeQ := ⟨32, ⟨4, 5, 6⟩, 2⟩

/-- A sample molecule (molar mass 40). -/
def molC : MoleculeQ := ⟨40, ⟨7, 8, 9⟩, 3⟩

/-- C8: when every explicit fraction passes the validity check,
`Mixture::new` fails with `MixtureNotWhole` exactly when the summed fill
exceeds 1, or differs from 1 with no remainder slot to absorb the gap; in
particular fractions {0.5, 0.3, 0.1} with no remainder, and {0.5, 0.5, 0.1},
both fail with `MixtureNotWhole`. -/
theorem c8_mixture_not_whole (comps : List CompQ) (hv : ∀ c ∈ comps, compOk c) :
    (MixtureQ.new comps = .error .mixtureNotWhole ↔
      1 < fillSum comps ∨ (fillSum comps ≠ 1 ∧ voidSum comps = 0)) ∧
    MixtureQ.new [.factor (.num (1/2)) (.molecule molA), .factor (.num (3/10)) (.molecule molB),
      .factor (.num (1/10)) (.molecule molC)] = .error .mixtureNotWhole ∧
    MixtureQ.new [.factor (.num (1/2)) (.molecule molA), .factor (.num (1/2)) (.molecule molB),
      .factor (.num (1/10)) (.molecule molC)] = .error .mixtureNotWhole := by
  refine ⟨?_, ?_, ?_⟩
  · rw [new_eq comps hv]
    split_ifs with h1 h2
    · exact iff_of_true rfl (Or.inl h1)
    · exact iff_of_true rfl (Or.inr h2)
    · constructor
      · intro habs
        exact absurd habs (by simp)
      · intro hor
        rcases hor with h | h
        · exact absurd h h1
        · exact absurd h h2
  · norm_num [MixtureQ.new, phase1, step, compFG, Fl.isNan, Fl.le, Fl.toQ]
  · norm_num [MixtureQ.new, phase1, step, compFG, Fl.isNan, Fl.le, Fl.toQ]

/-- Witness for C8 on a concrete valid input. -/
theorem c8_mixture_not_whole_witness :
    (∀ c ∈ [CompQ.factor (Fl.num (1/2)) (GasQ.molecule molA)], compOk c) ∧
    (MixtureQ.new [CompQ.factor (Fl.num (1/2)) (GasQ.molecule molA)] = .error .mixtureNotWhole ↔
      1 < fillSum [CompQ.factor (Fl.num (1/2)) (GasQ.molecule molA)] ∨
        (fillSum [CompQ.factor (Fl.num (1/2)) (GasQ.molecule molA)] ≠ 1 ∧
          voidSum [CompQ.factor (Fl.num (1/2)) (GasQ.molecule molA)] = 0)) := by
  have hv : ∀ c ∈ [CompQ.factor (Fl.num (1/2)) (GasQ.molecule molA)], compOk c := by
    intro c hc
    rcases List.mem_singleton.1 hc with rfl
    right
    norm_num [compFG, Fl.le]
  exact ⟨hv, (c8_mixture_not_whole _ hv).1⟩

/-- C9: if some component carries an explicit fraction outside (0,1) (in the
f64 sense: ≤ 0 or ≥ 1, which excludes NaN), construction fails with
`InvalidFraction` carrying such a fraction value from the input (the first
one encountered), and no mixture is produced. -/
theorem c9_invalid_fraction (comps : List CompQ)
    (hbad : ∃ c ∈ comps, ¬ compOk c) :
    ∃ f, (f.le (.num 0) ∨ (Fl.num 1).le f) ∧ (∃ c ∈ comps, (compFG c).1 = f) ∧
      MixtureQ.new comps = .error (.invalidFraction f) := by
  obtain ⟨f, hfb⟩ := exists_bad_firstBad comps hbad
  obtain ⟨⟨hval, hc⟩, hph⟩ := firstBad_some comps f hfb
  refine ⟨f, hval, hc, ?_⟩
  unfold MixtureQ.new
  rw [hph ([], 0, 0)]

/-- Witness for C9 at the concrete invalid fraction 2. -/
theorem c9_invalid_fraction_witness :
    (∃ c ∈ [CompQ.factor (Fl.num 2) (GasQ.molecule molA)], ¬ compOk c) ∧
    ∃ f, (f.le (.num 0) ∨ (Fl.num 1).le f) ∧
      (∃ c ∈ [CompQ.factor (Fl.num 2) (GasQ.molecule molA)], (compFG c).1 = f) ∧
      MixtureQ.new [CompQ.factor (Fl.num 2) (GasQ.molecule molA)] =
        .error (.invalidFraction f) := by
  have hbad : ∃ c ∈ [CompQ.factor (Fl.num 2) (GasQ.molecule molA)], ¬ compOk c := by
    refine ⟨CompQ.factor (Fl.num 2) (GasQ.molecule molA), by simp, ?_⟩
    intro h
    rcases h with h1 | h1
    · simp [compFG, Fl.isNan] at h1
    · apply h1
      right
      show Fl.le (Fl.num 1) (Fl.num 2)
      show (1 : ℚ) ≤ 2
      norm_num
  exact ⟨hbad, c9_invalid_fraction _ hbad⟩

lemma phase1_nan_remainder (g : GasQ) (post : List CompQ) :
    ∀ (pre : List CompQ) (acc : List (Bool × Fl × MoleculeQ) × ℚ × ℕ),
      phase1 (pre ++ CompQ.factor Fl.nan g :: post) acc =
        phase1 (pre ++ CompQ.remainder g :: post) acc := by
  intro pre
  induction pre with
  | nil => intro acc; rfl
  | cons c cs ih =>
    intro acc
    cases hs : step acc c with
    | error e => simp only [List.cons_append, phase1, hs]
    | ok a =>
      simp only [List.cons_append, phase1, hs]
      exact ih a

/-- C10: a `Comp::Factor` with NaN fraction is not rejected as invalid and is
treated exactly like a `Comp::Remainder`; consequently, when the explicit
fractions sum to exactly 1 and a NaN-fraction component is present,
construction succeeds and that component receives fraction 0, so a
successfully built mixture can contain a component with fraction 0. -/
theorem c10_nan_factor_is_remainder :
    (∀ (pre post : List CompQ) (g : GasQ),
      MixtureQ.new (pre ++ CompQ.factor Fl.nan g :: post) =
        MixtureQ.new (pre ++ CompQ.remainder g :: post)) ∧
    MixtureQ.new [CompQ.factor (Fl.num (1/2)) (GasQ.molecule molA),
        CompQ.factor (Fl.num (1/2)) (GasQ.molecule molB),
        CompQ.factor Fl.nan (GasQ.molecule molC)] =
      .ok ⟨[(1/2, molB), (1/2, molA), (0, molC)]⟩ := by
  constructor
  · intro pre post g
    unfold MixtureQ.new
    rw [phase1_nan_remainder g post pre ([], 0, 0)]
  · norm_num [MixtureQ.new, phase1, step, compFG, Fl.isNan, Fl.le, Fl.toQ, Fl.mul, attrib,
      sSort, sInsert, sLe, sortCmp, pairPcmp, molPcmp, pvtPcmp, qpcmp, mergeAdj, mergeInto,
      molA, molB, molC]

lemma sInsert_perm (x : ℚ × MoleculeQ) :
    ∀ l : List (ℚ × MoleculeQ), (sInsert x l).Perm (x :: l) := by
  intro l
  induction l with
  | nil => simp [sInsert]
  | cons y ys ih =>
    by_cases h : sLe x y
    · simp [sInsert, h]
    · rw [sInsert, if_neg h]
      exact (ih.cons y).trans (List.Perm.swap x y ys)

lemma sSort_perm : ∀ l : List (ℚ × MoleculeQ), (sSort l).Perm l := by
  intro l
  induction l with
  | nil => simp [sSort]
  | cons x xs ih =>
    rw [sSort]
    exact (sInsert_perm x (sSort xs)).trans (ih.cons x)

lemma mergeInto_sum : ∀ (l : List (ℚ × MoleculeQ)) (acc : ℚ × MoleculeQ),
    ((mergeInto acc l).map Prod.fst).sum = acc.1 + (l.map Prod.fst).sum := by
  intro l
  induction l with
  | nil => intro acc; simp [mergeInto]
  | cons x xs ih =>
    intro acc
    by_cases h : acc.2 = x.2
    · rw [mergeInto, if_pos h, ih]
      simp [add_assoc]
    · rw [mergeInto, if_neg h]
      simp only [List.map_cons, List.sum_cons, ih]

lemma mergeAdj_sum : ∀ l : List (ℚ × MoleculeQ),
    ((mergeAdj l).map Prod.fst).sum = (l.map Prod.fst).sum := by
  intro l
  cases l with
  | nil => rfl
  | cons x xs =>
    rw [mergeAdj, mergeInto_sum]
    simp

lemma sum_map_flatMap {α β : Type} (g : β → ℚ) (f : α → List β) :
    ∀ l : List α, ((l.flatMap f).map g).sum = (l.map (fun c => ((f c).map g).sum)).sum := by
  intro l
  induction l with
  | nil => rfl
  | cons x xs ih =>
    simp only [List.flatMap_cons, List.map_append, List.sum_append, List.map_cons,
      List.sum_cons, ih]

lemma sum_map_add_q {α : Type} (f g : α → ℚ) :
    ∀ l : List α, (l.map (fun c => f c + g c)).sum = (l.map f).sum + (l.map g).sum := by
  intro l
  induction l with
  | nil => simp
  | cons x xs ih =>
    simp only [List.map_cons, List.sum_cons, ih]
    ring

lemma sum_map_mul_k {α : Type} (f : α → ℚ) (k : ℚ) :
    ∀ l : List α, (l.map (fun c => f c * k)).sum = (l.map f).sum * k := by
  intro l
  induction l with
  | nil => simp
  | cons x xs ih =>
    simp only [List.map_cons, List.sum_cons, ih]
    ring

/-- Well-formedness of a gas appearing in a mixture input: any nested mixture
(necessarily built by `Mixture::new`) has fractions summing to 1. -/
def gasWf : GasQ → Prop
  | .molecule _ => True
  | .mixture mx => (mx.comps.map Prod.fst).sum = 1

/-- After void attribution with weight `va`, one component's entries carry a
total fraction of `fillOf c + voidsOf c * va`. -/
lemma comp_attrib_sum (va : ℚ) (c : CompQ) (hwf : gasWf (compFG c).2) :
    ((entriesOf c).map (fun e => ((attrib va e).2.1).toQ)).sum =
      fillOf c + (voidsOf c : ℚ) * va := by
  cases hf : (compFG c).1 with
  | nan =>
    cases hg : (compFG c).2 with
    | molecule m =>
      simp [entriesOf, fillOf, voidsOf, attrib, hf, hg, Fl.isNan, Fl.toQ]
    | mixture mx =>
      have hwf2 : (mx.comps.map Prod.fst).sum = 1 := by
        rw [hg] at hwf
        exact hwf
      simp only [entriesOf, fillOf, voidsOf, hf, hg, Fl.isNan, if_pos, List.map_map]
      have heq : ((fun e => ((attrib va e).2.1).toQ) ∘
          fun c0 => ((true : Bool), Fl.num c0.1, c0.2)) =
          fun c0 : ℚ × MoleculeQ => c0.1 * va := by
        funext c0
        simp [attrib, Fl.isNan, Fl.mul, Fl.toQ]
      rw [heq, sum_map_mul_k Prod.fst va, hwf2]
      simp
  | num q =>
    cases hg : (compFG c).2 with
    | molecule m =>
      simp [entriesOf, fillOf, voidsOf, attrib, hf, hg, Fl.isNan, Fl.toQ]
    | mixture mx =>
      have hwf2 : (mx.comps.map Prod.fst).sum = 1 := by
        rw [hg] at hwf
        exact hwf
      simp only [entriesOf, fillOf, voidsOf, hf, hg, Fl.isNan, List.map_map,
        Bool.false_eq_true, if_false]
      have heq : ((fun e => ((attrib va e).2.1).toQ) ∘
          fun c0 => ((false : Bool), (Fl.num q).mul (Fl.num c0.1), c0.2)) =
          fun c0 : ℚ × MoleculeQ => c0.1 * q := by
        funext c0
        simp [attrib, Fl.isNan, Fl.mul, Fl.toQ]
        ring
      rw [heq, sum_map_mul_k Prod.fst q, hwf2]
      simp [Fl.toQ]

/-- Without void attribution, one non-void component's entries carry a total
fraction of `fillOf c`. -/
lemma comp_noattrib_sum (c : CompQ) (hn : (compFG c).1.isNan = false)
    (hwf : gasWf (compFG c).2) :
    ((entriesOf c).map (fun e => e.2.1.toQ)).sum = fillOf c := by
  cases hf : (compFG c).1 with
  | nan => rw [hf] at hn; exact absurd hn (by simp [Fl.isNan])
  | num q =>
    cases hg : (compFG c).2 with
    | molecule m =>
      simp [entriesOf, fillOf, hf, hg, Fl.isNan, Fl.toQ]
    | mixture mx =>
      have hwf2 : (mx.comps.map Prod.fst).sum = 1 := by
        rw [hg] at hwf
        exact hwf
      simp only [entriesOf, fillOf, hf, hg, Fl.isNan, List.map_map,
        Bool.false_eq_true, if_false]
      have heq : ((fun e : Bool × Fl × MoleculeQ => e.2.1.toQ) ∘
          fun c0 => ((false : Bool), (Fl.num q).mul (Fl.num c0.1), c0.2)) =
          fun c0 : ℚ × MoleculeQ => c0.1 * q := by
        funext c0
        simp [Fl.mul, Fl.toQ]
        ring
      rw [heq, sum_map_mul_k Prod.fst q, hwf2]
      simp [Fl.toQ]

lemma voids_cast_sum : ∀ comps : List CompQ,
    (comps.map (fun c => (voidsOf c : ℚ))).sum = (voidSum comps : ℚ) := by
  intro comps
  induction comps with
  | nil => simp [voidSum]
  | cons c cs ih =>
    simp only [voidSum, List.map_cons, List.sum_cons] at ih ⊢
    push_cast
    rw [ih]
    push_cast
    ring

/-- C7: every successfully constructed mixture (from well-formed inputs: any
nested mixture itself sums to 1) has component fractions summing exactly to 1
in the exact-arithmetic model, hence strictly within 1e-7 of 1. -/
theorem c7_fraction_sum (comps : List CompQ)
    (hwf : ∀ c ∈ comps, gasWf (compFG c).2)
    (mx : MixtureQ) (h : MixtureQ.new comps = .ok mx) :
    (mx.comps.map Prod.fst).sum = 1 ∧
      (0.9999999 : ℚ) < (mx.comps.map Prod.fst).sum ∧
      (mx.comps.map Prod.fst).sum < (1.0000001 : ℚ) := by
  suffices hs : (mx.comps.map Prod.fst).sum = 1 by
    refine ⟨hs, ?_, ?_⟩ <;> rw [hs] <;> norm_num
  have hv : ∀ c ∈ comps, compOk c := by
    by_contra hcon
    push_neg at hcon
    obtain ⟨c, hc, hbad⟩ := hcon
    obtain ⟨f, hfb⟩ := exists_bad_firstBad comps ⟨c, hc, hbad⟩
    obtain ⟨_, hph⟩ := firstBad_some comps f hfb
    unfold MixtureQ.new at h
    rw [hph ([], 0, 0)] at h
    exact absurd h (by simp)
  rw [new_eq comps hv] at h
  split_ifs at h with h1 h2 h3
  · injection h with h4
    subst h4
    simp only
    rw [mergeAdj_sum]
    rw [((sSort_perm _).map Prod.fst).sum_eq]
    simp only [List.map_map]
    have hfun : Prod.fst ∘ ((fun e : Bool × Fl × MoleculeQ => (e.2.1.toQ, e.2.2)) ∘
        attrib ((1 - fillSum comps) / (voidSum comps : ℚ))) =
        fun e => ((attrib ((1 - fillSum comps) / (voidSum comps : ℚ)) e).2.1).toQ := by
      funext e
      rfl
    rw [hfun, sum_map_flatMap]
    rw [List.map_congr_left (fun c hc =>
      comp_attrib_sum ((1 - fillSum comps) / (voidSum comps : ℚ)) c (hwf c hc))]
    rw [sum_map_add_q, sum_map_mul_k, voids_cast_sum]
    have hvne : (voidSum comps : ℚ) ≠ 0 := by
      have hlt : (0 : ℚ) < (voidSum comps : ℚ) := by exact_mod_cast h3
      exact ne_of_gt hlt
    show fillSum comps + (voidSum comps : ℚ) * ((1 - fillSum comps) / (voidSum comps : ℚ)) = 1
    field_simp
  · have hV0 : voidSum comps = 0 := Nat.eq_zero_of_not_pos h3
    have hF1 : fillSum comps = 1 := by
      by_contra hF
      exact h2 ⟨hF, hV0⟩
    have hnn : ∀ c ∈ comps, (compFG c).1.isNan = false := by
      intro c hc
      have h0 : voidsOf c = 0 := by
        refine List.sum_eq_zero_iff.1 ?_ (voidsOf c) (List.mem_map_of_mem voidsOf hc)
        exact hV0
      by_cases hb : (compFG c).1.isNan = true
      · rw [voidsOf, if_pos hb] at h0
        exact absurd h0 (by norm_num)
      · cases hh : (compFG c).1.isNan
        · rfl
        · exact absurd hh hb
    injection h with h4
    subst h4
    simp only
    rw [mergeAdj_sum]
    rw [((sSort_perm _).map Prod.fst).sum_eq]
    simp only [List.map_map]
    have hfun : (Prod.fst ∘ fun e : Bool × Fl × MoleculeQ => (e.2.1.toQ, e.2.2)) =
        fun e : Bool × Fl × MoleculeQ => e.2.1.toQ := by
      funext e
      rfl
    rw [hfun, sum_map_flatMap]
    rw [List.map_congr_left (fun c hc => comp_noattrib_sum c (hnn c hc) (hwf c hc))]
    exact hF1

/-- Witness for C7 on a concrete input with one remainder component. -/
theorem c7_fraction_sum_witness :
    MixtureQ.new [CompQ.factor (Fl.num (1/2)) (GasQ.molecule molA),
        CompQ.remainder (GasQ.molecule molC)] = .ok ⟨[(1/2, molC), (1/2, molA)]⟩ ∧
    (((⟨[(1/2, molC), (1/2, molA)]⟩ : MixtureQ).comps.map Prod.fst).sum = 1 ∧
      (0.9999999 : ℚ) < ((⟨[(1/2, molC), (1/2, molA)]⟩ : MixtureQ).comps.map Prod.fst).sum ∧
      ((⟨[(1/2, molC), (1/2, molA)]⟩ : MixtureQ).comps.map Prod.fst).sum < (1.0000001 : ℚ)) := by
  have hval : MixtureQ.new [CompQ.factor (Fl.num (1/2)) (GasQ.molecule molA),
      CompQ.remainder (GasQ.molecule molC)] = .ok ⟨[(1/2, molC), (1/2, molA)]⟩ := by
    norm_num [MixtureQ.new, phase1, step, compFG, Fl.isNan, Fl.le, Fl.toQ, Fl.mul, attrib,
      sSort, sInsert, sLe, sortCmp, pairPcmp, molPcmp, pvtPcmp, qpcmp, mergeAdj, mergeInto,
      molA, molC]
  have hwf : ∀ c ∈ [CompQ.factor (Fl.num (1/2)) (GasQ.molecule molA),
      CompQ.remainder (GasQ.molecule molC)], gasWf (compFG c).2 := by
    intro c hc
    simp only [List.mem_cons, List.mem_singleton] at hc
    rcases hc with rfl | rfl | h3
    · trivial
    · trivial
    · exact absurd h3 (by simp)
  exact ⟨hval, c7_fraction_sum _ hwf _ hval⟩

/-- Characterisation of the sort comparator: `x` may precede `y` iff `x` has
the larger fraction, or equal fractions and the larger-or-equal molar mass.
Critical state and acentric factor are never consulted: `or_else` in
`Molecule::partial_cmp` only fires on `None`, which cannot happen on exact
values. -/
lemma sLe_iff (x y : ℚ × MoleculeQ) :
    sLe x y ↔ (y.1 < x.1 ∨ (y.1 = x.1 ∧ y.2.m ≤ x.2.m)) := by
  unfold sLe sortCmp pairPcmp molPcmp qpcmp
  rcases lt_trichotomy y.1 x.1 with h1 | h1 | h1
  · simp [h1]
  · simp only [h1, lt_irrefl, if_false, if_pos rfl]
    rcases lt_trichotomy y.2.m x.2.m with h3 | h3 | h3
    · simp [h3, le_of_lt h3, Option.orElse]
    · simp [h3, lt_irrefl, le_of_eq h3, Option.orElse]
    · simp [lt_asymm h3, ne_of_gt h3, not_le.mpr h3, Option.orElse]
  · simp [lt_asymm h1, ne_of_gt h1, not_lt.mpr (le_of_lt h1), Option.orElse]

lemma sLe_total (x y : ℚ × MoleculeQ) : sLe x y ∨ sLe y x := by
  rw [sLe_iff, sLe_iff]
  rcases lt_trichotomy x.1 y.1 with h | h | h
  · right; left; exact h
  · rcases le_total y.2.m x.2.m with hm | hm
    · left; right; exact ⟨h.symm, hm⟩
    · right; right; exact ⟨h, hm⟩
  · left; left; exact h

lemma sLe_trans {x y z : ℚ × MoleculeQ} (h1 : sLe x y) (h2 : sLe y z) : sLe x z := by
  rw [sLe_iff] at h1 h2 ⊢
  rcases h1 with h1 | ⟨h1, h1m⟩
  · rcases h2 with h2 | ⟨h2, _⟩
    · left; exact lt_trans h2 h1
    · left; exact h2 ▸ h1
  · rcases h2 with h2 | ⟨h2, h2m⟩
    · left; exact h1 ▸ h2
    · right; exact ⟨h2.trans h1, le_trans h2m h1m⟩

lemma sLe_antisym_parts {x y : ℚ × MoleculeQ} (h1 : sLe x y) (h2 : sLe y x) :
    x.1 = y.1 ∧ x.2.m = y.2.m := by
  rw [sLe_iff] at h1 h2
  rcases h1 with h1 | ⟨h1, h1m⟩
  · rcases h2 with h2 | ⟨h2, _⟩
    · exact absurd h2 (lt_asymm h1)
    · exact absurd h2 (ne_of_gt h1)
  · rcases h2 with h2 | ⟨h2, h2m⟩
    · exact absurd h1 (ne_of_gt h2)
    · exact ⟨h2, le_antisymm h2m h1m⟩

lemma sInsert_pairwise (x : ℚ × MoleculeQ) :
    ∀ l : List (ℚ × MoleculeQ), l.Pairwise sLe → (sInsert x l).Pairwise sLe := by
  intro l
  induction l with
  | nil => intro _; simp [sInsert]
  | cons y ys ih =>
    intro h
    obtain ⟨hy, hys⟩ := List.pairwise_cons.1 h
    by_cases hxy : sLe x y
    · rw [sInsert, if_pos hxy]
      refine List.pairwise_cons.2 ⟨?_, h⟩
      intro z hz
      rcases List.mem_cons.1 hz with rfl | hz2
      · exact hxy
      · exact sLe_trans hxy (hy z hz2)
    · rw [sInsert, if_neg hxy]
      refine List.pairwise_cons.2 ⟨?_, ih hys⟩
      intro z hz
      have hz2 : z ∈ x :: ys := (sInsert_perm x ys).mem_iff.1 hz
      rcases List.mem_cons.1 hz2 with rfl | hz3
      · rcases sLe_total z y with h3 | h3
        · exact absurd h3 hxy
        · exact h3
      · exact hy z hz3

lemma sSort_pairwise : ∀ l : List (ℚ × MoleculeQ), (sSort l).Pairwise sLe := by
  intro l
  induction l with
  | nil => simp [sSort]
  | cons x xs ih =>
    rw [sSort]
    exact sInsert_pairwise x (sSort xs) ih

/-- Two sorted permutations of the same elements agree, provided ties only
occur between equal elements. -/
lemma pairwise_perm_eq : ∀ (l1 l2 : List (ℚ × MoleculeQ)), l1.Perm l2 →
    l1.Pairwise sLe → l2.Pairwise sLe →
    (∀ x ∈ l1, ∀ y ∈ l1, sLe x y → sLe y x → x = y) → l1 = l2 := by
  intro l1
  induction l1 with
  | nil =>
    intro l2 hp _ _ _
    exact (hp.symm.eq_nil).symm
  | cons a t1 ih =>
    intro l2 hp hp1 hp2 hanti
    cases l2 with
    | nil => exact absurd hp.eq_nil (by simp)
    | cons b t2 =>
      have hab : a = b := by
        have hain : a ∈ b :: t2 := hp.mem_iff.1 (by simp)
        have hbin : b ∈ a :: t1 := hp.symm.mem_iff.1 (by simp)
        rcases List.mem_cons.1 hain with h1 | h1
        · exact h1
        rcases List.mem_cons.1 hbin with h2 | h2
        · exact h2.symm
        have h3 : sLe b a := (List.pairwise_cons.1 hp2).1 a h1
        have h4 : sLe a b := (List.pairwise_cons.1 hp1).1 b h2
        exact hanti a (by simp) b (by simp [h2]) h4 h3
      subst hab
      have hp' : t1.Perm t2 := hp.cons_inv
      have ht : t1 = t2 := ih t2 hp' (List.pairwise_cons.1 hp1).2 (List.pairwise_cons.1 hp2).2
        (fun x hx y hy => hanti x (by simp [hx]) y (by simp [hy]))
      rw [ht]

/-- Molecules occurring in a gas. -/
def gasMols : GasQ → List MoleculeQ
  | .molecule m => [m]
  | .mixture mx => mx.comps.map Prod.snd

/-- Molecules occurring anywhere in a mixture input. -/
def allMols (comps : List CompQ) : List MoleculeQ :=
  comps.flatMap (fun c => gasMols (compFG c).2)

lemma entriesOf_mol (c : CompQ) : ∀ e ∈ entriesOf c, e.2.2 ∈ gasMols (compFG c).2 := by
  intro e he
  cases hg : (compFG c).2 with
  | molecule m =>
    simp only [entriesOf, hg] at he
    rcases List.mem_singleton.1 he with rfl
    simp [gasMols, hg]
  | mixture mx =>
    simp only [entriesOf, hg, List.mem_map] at he
    obtain ⟨c0, hc0, he2⟩ := he
    have hmol : e.2.2 = c0.2 := by
      by_cases hn : (compFG c).1.isNan = true
      · rw [if_pos hn] at he2
        rw [← he2]
      · have hn2 : ¬((compFG c).1.isNan = true) := hn
        rw [if_neg hn2] at he2
        rw [← he2]
    rw [hmol]
    show c0.2 ∈ mx.comps.map Prod.snd
    exact List.mem_map_of_mem Prod.snd hc0

lemma attrib_mol (va : ℚ) (e : Bool × Fl × MoleculeQ) : (attrib va e).2.2 = e.2.2 := by
  unfold attrib
  split_ifs <;> rfl

lemma flat_mol (cs : List CompQ) (e : Bool × Fl × MoleculeQ)
    (he : e ∈ cs.flatMap entriesOf) : e.2.2 ∈ allMols cs := by
  obtain ⟨c, hc, he2⟩ := List.mem_flatMap.1 he
  exact List.mem_flatMap.2 ⟨c, hc, entriesOf_mol c e he2⟩

lemma proj_mol (cs : List CompQ) (f : (Bool × Fl × MoleculeQ) → (Bool × Fl × MoleculeQ))
    (hf : ∀ e, (f e).2.2 = e.2.2) :
    ∀ x ∈ ((cs.flatMap entriesOf).map f).map (fun e => (e.2.1.toQ, e.2.2)),
      x.2 ∈ allMols cs := by
  intro x hx
  obtain ⟨e1, he1, rfl⟩ := List.mem_map.1 hx
  obtain ⟨e0, he0, rfl⟩ := List.mem_map.1 he1
  show (f e0).2.2 ∈ allMols cs
  rw [hf e0]
  exact flat_mol cs e0 he0

lemma proj_mol_id (cs : List CompQ) :
    ∀ x ∈ (cs.flatMap entriesOf).map (fun e => (e.2.1.toQ, e.2.2)),
      x.2 ∈ allMols cs := by
  intro x hx
  obtain ⟨e0, he0, rfl⟩ := List.mem_map.1 hx
  exact flat_mol cs e0 he0

lemma sorted_out_eq (cs1 : List CompQ)
    (hmass : ∀ m1 ∈ allMols cs1, ∀ m2 ∈ allMols cs1, m1.m = m2.m → m1 = m2)
    (L1 L2 : List (ℚ × MoleculeQ)) (hperm : L1.Perm L2)
    (hmols : ∀ x ∈ L1, x.2 ∈ allMols cs1) :
    sSort L1 = sSort L2 := by
  refine pairwise_perm_eq _ _ ((sSort_perm L1).trans (hperm.trans (sSort_perm L2).symm))
    (sSort_pairwise L1) (sSort_pairwise L2) ?_
  intro x hx y hy hxy hyx
  have hx2 : x ∈ L1 := (sSort_perm L1).mem_iff.1 hx
  have hy2 : y ∈ L1 := (sSort_perm L1).mem_iff.1 hy
  obtain ⟨hfr, hm⟩ := sLe_antisym_parts hxy hyx
  exact Prod.ext hfr (hmass _ (hmols x hx2) _ (hmols y hy2) hm)

/-- C6 (amended): mixture construction is order-independent provided no two
distinct molecules in the input share the same molar mass (the comparator
breaks fraction ties by molar mass only): for any two permuted inputs on
which `Mixture::new` succeeds, the resulting mixtures are identical. -/
theorem c6_order_independent_amended (cs1 cs2 : List CompQ) (hperm : cs1.Perm cs2)
    (hmass : ∀ m1 ∈ allMols cs1, ∀ m2 ∈ allMols cs1, m1.m = m2.m → m1 = m2)
    (mx1 mx2 : MixtureQ)
    (h1 : MixtureQ.new cs1 = .ok mx1) (h2 : MixtureQ.new cs2 = .ok mx2) :
    mx1 = mx2 := by
  have hv1 : ∀ c ∈ cs1, compOk c := by
    by_contra hcon
    push_neg at hcon
    obtain ⟨c, hc, hbad⟩ := hcon
    obtain ⟨f, hfb⟩ := exists_bad_firstBad cs1 ⟨c, hc, hbad⟩
    obtain ⟨_, hph⟩ := firstBad_some cs1 f hfb
    unfold MixtureQ.new at h1
    rw [hph ([], 0, 0)] at h1
    exact absurd h1 (by simp)
  have hv2 : ∀ c ∈ cs2, compOk c := fun c hc => hv1 c (hperm.mem_iff.2 hc)
  have hF : fillSum cs1 = fillSum cs2 := (hperm.map fillOf).sum_eq
  have hV : voidSum cs1 = voidSum cs2 := (hperm.map voidsOf).sum_eq
  have hpflat : (cs1.flatMap entriesOf).Perm (cs2.flatMap entriesOf) := by
    rw [List.flatMap_def, List.flatMap_def]
    exact (hperm.map entriesOf).flatten
  rw [new_eq cs1 hv1] at h1
  rw [new_eq cs2 hv2] at h2
  rw [← hF, ← hV] at h2
  by_cases ha : 1 < fillSum cs1
  · rw [if_pos ha] at h1
    exact absurd h1 (by simp)
  · rw [if_neg ha] at h1 h2
    by_cases hb : fillSum cs1 ≠ 1 ∧ voidSum cs1 = 0
    · rw [if_pos hb] at h1
      exact absurd h1 (by simp)
    · rw [if_neg hb] at h1 h2
      by_cases hc : 0 < voidSum cs1
      · rw [if_pos hc] at h1 h2
        injection h1 with e1
        injection h2 with e2
        subst e1
        subst e2
        have hsort := sorted_out_eq cs1 hmass _ _
          ((hpflat.map (attrib ((1 - fillSum cs1) / (voidSum cs1 : ℚ)))).map
            (fun e => (e.2.1.toQ, e.2.2)))
          (proj_mol cs1 (attrib ((1 - fillSum cs1) / (voidSum cs1 : ℚ)))
            (attrib_mol ((1 - fillSum cs1) / (voidSum cs1 : ℚ))))
        rw [hsort]
      · rw [if_neg hc] at h1 h2
        injection h1 with e1
        injection h2 with e2
        subst e1
        subst e2
        have hsort := sorted_out_eq cs1 hmass _ _
          (hpflat.map (fun e => (e.2.1.toQ, e.2.2))) (proj_mol_id cs1)
        rw [hsort]

/-- A molecule with molar mass 28 and acentric factor 1. -/
def molX : MoleculeQ := ⟨28, ⟨1, 2, 3⟩, 1⟩

/-- A distinct molecule with the same molar mass 28 but acentric factor 2. -/
def molY : MoleculeQ := ⟨28, ⟨1, 2, 3⟩, 2⟩


lemma ord_eq_gt_false : (Ordering.eq = Ordering.gt) = False := by simp

lemma ord_lt_gt_false : (Ordering.lt = Ordering.gt) = False := by simp

lemma ord_gt_gt_true : (Ordering.gt = Ordering.gt) = True := by simp

/-- Counterexample to C6 as stated: two permuted inputs of distinct molecules
sharing fraction and molar mass both construct successfully, but yield
mixtures whose component lists are in different orders: the sort comparator
ties (it compares molecules by molar mass only, never reaching critical state
or acentric factor), and the stable sort keeps the input order. -/
theorem c6_counterexample :
    ([CompQ.factor (Fl.num (1/2)) (GasQ.molecule molX),
      CompQ.factor (Fl.num (1/2)) (GasQ.molecule molY)] : List CompQ).Perm
      [CompQ.factor (Fl.num (1/2)) (GasQ.molecule molY),
        CompQ.factor (Fl.num (1/2)) (GasQ.molecule molX)] ∧
    MixtureQ.new [CompQ.factor (Fl.num (1/2)) (GasQ.molecule molX),
        CompQ.factor (Fl.num (1/2)) (GasQ.molecule molY)] =
      .ok ⟨[(1/2, molX), (1/2, molY)]⟩ ∧
    MixtureQ.new [CompQ.factor (Fl.num (1/2)) (GasQ.molecule molY),
        CompQ.factor (Fl.num (1/2)) (GasQ.molecule molX)] =
      .ok ⟨[(1/2, molY), (1/2, molX)]⟩ ∧
    (MixtureQ.mk [(1/2, molX), (1/2, molY)]) ≠ (MixtureQ.mk [(1/2, molY), (1/2, molX)]) := by
  refine ⟨List.Perm.swap _ _ [], ?_, ?_, ?_⟩
  · norm_num [MixtureQ.new, phase1, step, compFG, Fl.isNan, Fl.le, Fl.toQ, Fl.mul, attrib,
      sSort, sInsert, sLe, sortCmp, pairPcmp, molPcmp, pvtPcmp, qpcmp, mergeAdj, mergeInto,
      molX, molY, Option.orElse, ord_eq_gt_false, ord_lt_gt_false, ord_gt_gt_true]
  · norm_num [MixtureQ.new, phase1, step, compFG, Fl.isNan, Fl.le, Fl.toQ, Fl.mul, attrib,
      sSort, sInsert, sLe, sortCmp, pairPcmp, molPcmp, pvtPcmp, qpcmp, mergeAdj, mergeInto,
      molX, molY, Option.orElse, ord_eq_gt_false, ord_lt_gt_false, ord_gt_gt_true]
  · norm_num [molX, molY]

/-- Witness for the amended C6 on a concrete pair of permuted inputs with
distinct molar masses. -/
theorem c6_order_independent_amended_witness :
    ([CompQ.factor (Fl.num (3/10)) (GasQ.molecule molA),
      CompQ.factor (Fl.num (7/10)) (GasQ.molecule molB)] : List CompQ).Perm
      [CompQ.factor (Fl.num (7/10)) (GasQ.molecule molB),
        CompQ.factor (Fl.num (3/10)) (GasQ.molecule molA)] ∧
    (⟨[(7/10, molB), (3/10, molA)]⟩ : MixtureQ) = ⟨[(7/10, molB), (3/10, molA)]⟩ := by
  have hp : ([CompQ.factor (Fl.num (3/10)) (GasQ.molecule molA),
      CompQ.factor (Fl.num (7/10)) (GasQ.molecule molB)] : List CompQ).Perm
      [CompQ.factor (Fl.num (7/10)) (GasQ.molecule molB),
        CompQ.factor (Fl.num (3/10)) (GasQ.molecule molA)] := List.Perm.swap _ _ []
  have h1 : MixtureQ.new [CompQ.factor (Fl.num (3/10)) (GasQ.molecule molA),
      CompQ.factor (Fl.num (7/10)) (GasQ.molecule molB)] =
      .ok ⟨[(7/10, molB), (3/10, molA)]⟩ := by
    norm_num [MixtureQ.new, phase1, step, compFG, Fl.isNan, Fl.le, Fl.toQ, Fl.mul, attrib,
      sSort, sInsert, sLe, sortCmp, pairPcmp, molPcmp, pvtPcmp, qpcmp, mergeAdj, mergeInto,
      molA, molB, Option.orElse, ord_eq_gt_false, ord_lt_gt_false, ord_gt_gt_true]
  have h2 : MixtureQ.new [CompQ.factor (Fl.num (7/10)) (GasQ.molecule molB),
      CompQ.factor (Fl.num (3/10)) (GasQ.molecule molA)] =
      .ok ⟨[(7/10, molB), (3/10, molA)]⟩ := by
    norm_num [MixtureQ.new, phase1, step, compFG, Fl.isNan, Fl.le, Fl.toQ, Fl.mul, attrib,
      sSort, sInsert, sLe, sortCmp, pairPcmp, molPcmp, pvtPcmp, qpcmp, mergeAdj, mergeInto,
      molA, molB, Option.orElse, ord_eq_gt_false, ord_lt_gt_false, ord_gt_gt_true]
  have hmass : ∀ m1 ∈ allMols [CompQ.factor (Fl.num (3/10)) (GasQ.molecule molA),
      CompQ.factor (Fl.num (7/10)) (GasQ.molecule molB)],
      ∀ m2 ∈ allMols [CompQ.factor (Fl.num (3/10)) (GasQ.molecule molA),
        CompQ.factor (Fl.num (7/10)) (GasQ.molecule molB)], m1.m = m2.m → m1 = m2 := by
    intro m1 hm1 m2 hm2 heq
    simp only [allMols, gasMols, compFG, List.flatMap_cons, List.flatMap_nil,
      List.append_nil, List.mem_append, List.mem_singleton] at hm1 hm2
    rcases hm1 with rfl | rfl <;> rcases hm2 with rfl | rfl
    · rfl
    · exact absurd heq (by norm_num [molA, molB])
    · exact absurd heq (by norm_num [molA, molB])
    · rfl
  exact ⟨hp, c6_order_independent_amended _ _ hp hmass _ _ h1 h2⟩
